import Mathlib

/-!
# A model of the release-to-recipe reconciliation engine

This file is a shallow embedding, in Lean, of the core of the
`another-brave-overlay` update scripts (`scripts/shared.py` and
`scripts/update_ebuilds.py`): version extraction and ordering, the release
feed scan, the recipe store, manifest (checksum ledger) reconciliation and
the update/prune orchestration.

Strings are modelled as lists of characters (`Str`), directories as
association lists from filename to file content, and every fallible Python
operation (exceptions: `AssertionError`, `ValueError`, `IndexError`,
`RuntimeError`, network errors) is modelled by an `Option` result, `none`
meaning the operation raised.  Two sources of environmental
nondeterminism are made explicit parameters:

* `fetch` — the distfile download collaborator: maps a URL to the size and
  digests of the stream, `none` modelling a network/IO failure;
* `pick` — the iteration order of the Python set difference
  `versions - versions_in_manifest` in `update_manifest` (Python string-set
  iteration order depends on the per-process hash seed, so it is an input
  of the model rather than a function of the set's contents).
-/

/-- Python strings, modelled as lists of characters. -/
abbrev Str := List Char

/-- A string literal, as a character list. -/
def str (s : String) : Str := s.data

/-- The character class `[\d\.-r]` of `_VERSION_REGEX` in `scripts/shared.py`.
In a Python character class `\.-r` denotes the range from `.` (0x2E) to
`r` (0x72); `\d` is contained in that range, and `-` (0x2D) is *not* in
the class. -/
def versionClassChar (c : Char) : Bool :=
  c.isDigit || (decide ('.' ≤ c) && decide (c ≤ 'r'))

/-- `_VERSION_REGEX.search`, i.e. `re.search(r"-\d[\d\.-r]+", s)`: the
leftmost position where the pattern matches, with the trailing `+`
matching greedily; returns `group(0)` (the matched substring). -/
def reSearchVersion : Str → Option Str
  | [] => none
  | c :: rest =>
    if c = '-' then
      match rest with
      | d :: e :: tail =>
        if d.isDigit && versionClassChar e then
          some ('-' :: d :: e :: tail.takeWhile versionClassChar)
        else reSearchVersion rest
      | _ => reSearchVersion rest
    else reSearchVersion rest

/-- `os.path.basename`: the part of the path after the last `/`. -/
def basename (p : Str) : Str :=
  p.foldl (fun acc c => if c = '/' then [] else acc ++ [c]) []

/-- Does `l` end with `suffix`? (`str.endswith`.) -/
def endsWithL (l suffix : Str) : Bool := suffix.isSuffixOf l

/-- `extract_version` from `scripts/shared.py`.  `none` models the raised
`AssertionError` (filename does not end in `.ebuild`) or `ValueError`
(no match for the version regex).  `rsplit(".ebuild", 1)[0]` drops the
final `.ebuild`, which is the last occurrence since the filename ends
with it. -/
def extract_version (path : Str) : Option Str :=
  let filename := basename path
  if endsWithL filename (str ".ebuild") then
    let base_name := filename.take (filename.length - 7)
    match reSearchVersion base_name with
    | some m => some (m.drop 1)
    | none => none
  else none

/-- Python `int(s)` on the strings reachable from `version_key`: a leading
digit followed by digits with single `_` separators allowed between
digits (PEP 515).  Signs and surrounding whitespace, which Python's `int`
also accepts, cannot occur in a version token: every character of one is
a digit or lies in the range `.`–`r`, which contains `_` but no sign or
space. -/
def pyIntAux : Str → Nat → Option Nat
  | [], acc => some acc
  | '_' :: c :: rest, acc =>
    if c.isDigit then pyIntAux rest (acc * 10 + (c.toNat - 48)) else none
  | ['_'], _ => none
  | c :: rest, acc =>
    if c.isDigit then pyIntAux rest (acc * 10 + (c.toNat - 48)) else none

/-- Python `int(s)` (see `pyIntAux`); `none` models the raised `ValueError`. -/
def pyInt : Str → Option Nat
  | [] => none
  | c :: rest => if c.isDigit then pyIntAux rest (c.toNat - 48) else none

/-- `s.split(sep)` for a single-character separator, Python semantics
(empty pieces are kept; splitting the empty string gives `[""]`). -/
def splitOnChar (sep : Char) : Str → List Str
  | [] => [[]]
  | c :: rest =>
    let r := splitOnChar sep rest
    if c = sep then [] :: r
    else
      match r with
      | [] => [[c]]
      | h :: t => (c :: h) :: t

/-- The split point of `s.rsplit(pat, 1)`: the last index at which `pat`
occurs in `l`. -/
def lastOccurrence (l pat : Str) : Option Nat :=
  ((List.range (l.length + 1)).filter (fun i => pat.isPrefixOf (l.drop i))).getLast?

/-- Python's substring test `pat in l`. -/
def isInfixOfL (pat l : Str) : Bool :=
  (List.range (l.length + 1)).any (fun i => pat.isPrefixOf (l.drop i))

/-- Map a fallible function over a list, failing as soon as one element
fails (a Python comprehension whose body may raise). -/
def mapO {α β : Type} (g : α → Option β) : List α → Option (List β)
  | [] => some []
  | x :: xs =>
    match g x, mapO g xs with
    | some y, some ys => some (y :: ys)
    | _, _ => none

/-- `version_key` from `scripts/shared.py`: extract the version from the
path, split off a `-r<N>` revision (defaulting to 0), and return the list
of numeric components with the revision appended. -/
def version_key (path : Str) : Option (List Nat) := do
  let version_full ← extract_version path
  let (version, revision) ←
    if isInfixOfL (str "-r") version_full then
      match lastOccurrence version_full (str "-r") with
      | some i => do
          let rev ← pyInt (version_full.drop (i + 2))
          pure (version_full.take i, rev)
      | none => none
    else pure (version_full, 0)
  let nums ← mapO pyInt (splitOnChar '.' version)
  pure (nums ++ [revision])

/-- `EBUILD_FILE = "{name}-{version}.ebuild"` from `scripts/update_ebuilds.py`. -/
def ebuild_file (name version : Str) : Str :=
  name ++ str "-" ++ version ++ str ".ebuild"

/-- `BRAVE_SOURCE_FILE = "{name}_{version}_amd64.deb"`. -/
def source_file (name version : Str) : Str :=
  name ++ str "_" ++ version ++ str "_amd64.deb"

/-- `BRAVE_SOURCE_URL`: the deterministic download URL of a distfile. -/
def source_url (name version : Str) : Str :=
  str "https://github.com/brave/brave-browser/releases/download/v" ++ version
    ++ str "/" ++ source_file name version

/-! ## Sorting (Python `sorted(..., key=version_key)`) -/

/-- Comparison of Python lists of integers: lexicographic, with a proper
prefix comparing less. -/
def listNatCmp : List Nat → List Nat → Ordering
  | [], [] => .eq
  | [], _ :: _ => .lt
  | _ :: _, [] => .gt
  | a :: as', b :: bs' =>
    match compare a b with
    | .eq => listNatCmp as' bs'
    | o => o

/-- Strict `<` on sort keys. -/
def natKeyLT (a b : List Nat) : Bool := listNatCmp a b == Ordering.lt

/-- Insert `x` after every element it is not strictly below.  Folding this
over the input from the left is a stable ascending sort, which is the
guarantee Python's `sorted` gives. -/
def stableInsert {α : Type} (lt : α → α → Bool) (x : α) : List α → List α
  | [] => [x]
  | y :: ys => if lt x y then x :: y :: ys else y :: stableInsert lt x ys

/-- Stable ascending sort (Python `sorted` with a strict key comparison). -/
def stableSortGo {α : Type} (lt : α → α → Bool) : List α → List α → List α
  | [], acc => acc
  | x :: xs, acc => stableSortGo lt xs (stableInsert lt x acc)

/-- Stable ascending sort of a list. -/
def stableSort {α : Type} (lt : α → α → Bool) (l : List α) : List α :=
  stableSortGo lt l []

/-- `sorted(files, key=version_key)`: Python first computes the key of every
element (any `ValueError` from `version_key` aborts the sort), then sorts
stably by key. -/
def sortedEbuilds (files : List Str) : Option (List Str) := do
  let keyed ← mapO (fun f => (version_key f).map (fun k => (k, f))) files
  pure ((stableSort (fun a b => natKeyLT a.1 b.1) keyed).map (·.2))

/-! ## Directories and the recipe store -/

/-- A directory: an association list from filename to file content, in
directory-scan order. -/
abbrev Dir := List (Str × Str)

/-- Read a file (`open(path, "r")` etc.); `none` models the raised
`FileNotFoundError`. -/
def lookupFile (d : Dir) (f : Str) : Option Str :=
  (d.find? (fun kv => kv.1 == f)).map (·.2)

/-- Write a file, replacing its content if it exists and creating it
otherwise. -/
def setFile (d : Dir) (f c : Str) : Dir :=
  if d.any (fun kv => kv.1 == f) then
    d.map (fun kv => if kv.1 == f then (f, c) else kv)
  else d ++ [(f, c)]

/-- `os.unlink` of the listed filenames. -/
def removeFiles (d : Dir) (fs : List Str) : Dir :=
  d.filter (fun kv => !(fs.any (fun g => g == kv.1)))

/-- Does a filename match the glob pattern `*.ebuild`?  (`*` in a glob does
not match a leading dot.) -/
def isEbuildName (f : Str) : Bool :=
  (match f with
   | [] => false
   | c :: _ => decide (c ≠ '.')) && endsWithL f (str ".ebuild")

/-- `glob.glob(os.path.join(ebuild_dir, "*.ebuild"))`, as the filenames
within the directory (the model works with names relative to the channel
directory; `extract_version` takes the basename, so nothing depends on
the leading directory part). -/
def globEbuilds (d : Dir) : List Str :=
  (d.map (·.1)).filter isEbuildName

/-- The sorted recipe listing of one channel directory
(`get_ebuilds` without `only_latest`). -/
def get_ebuilds_dir (d : Dir) : Option (List Str) :=
  sortedEbuilds (globEbuilds d)

/-! ## Channels -/

/-- The three release channels. -/
inductive Chan
  | stable
  | beta
  | nightly
deriving DecidableEq

/-- `CHANNELS` (the keys of `CHANNELS_WITH_TITLE`, in order). -/
def CHANNELS : List Chan := [.stable, .beta, .nightly]

/-- The release-title prefix of each channel (`CHANNELS_WITH_TITLE`). -/
def channel_title : Chan → Str
  | .stable => str "Release "
  | .beta => str "Beta "
  | .nightly => str "Nightly "

/-- `make_name_from_channel`: `brave-browser` plus a `-<channel>` suffix for
the non-stable channels. -/
def make_name_from_channel : Chan → Str
  | .stable => str "brave-browser"
  | .beta => str "brave-browser-beta"
  | .nightly => str "brave-browser-nightly"

/-- The repository: one recipe directory per channel
(`www-client/<name>/`). -/
structure Repo where
  stable : Dir
  beta : Dir
  nightly : Dir
deriving DecidableEq

/-- The channel's directory. -/
def Repo.dirOf (r : Repo) : Chan → Dir
  | .stable => r.stable
  | .beta => r.beta
  | .nightly => r.nightly

/-- Replace the channel's directory. -/
def Repo.setDir (r : Repo) : Chan → Dir → Repo
  | .stable, d => { r with stable := d }
  | .beta, d => { r with beta := d }
  | .nightly, d => { r with nightly := d }

/-- `get_ebuilds(channel, repo_dir)`: the sorted recipe listing of the
channel's directory. -/
def get_ebuilds (c : Chan) (repo : Repo) : Option (List Str) :=
  get_ebuilds_dir (repo.dirOf c)

/-! ## Manifest reconciliation (`update_manifest`) -/

/-- `f.readlines()`: split into lines, each keeping its trailing newline
(the last line may lack one). -/
def splitKeepNl : Str → Str → List Str
  | [], acc => if acc.isEmpty then [] else [acc.reverse]
  | c :: rest, acc =>
    if c = '\n' then (acc.reverse ++ ['\n']) :: splitKeepNl rest []
    else splitKeepNl rest (c :: acc)

/-- The lines of a manifest file's content. -/
def manifestLines (content : Str) : List Str := splitKeepNl content []

/-- A line that consists of a newline-free body terminated by `\n` (every
line of a newline-terminated file has this shape). -/
def NlTerm (l : Str) : Prop := ∃ body, l = body ++ ['\n'] ∧ '\n' ∉ body

/-- `f.writelines(lines)`: concatenation. -/
def joinAll (ls : List Str) : Str := ls.foldr (· ++ ·) []

/-- The result of streaming one distfile: total byte count and the two
hexdigests, in `MANIFEST_HASH_ALGOS` order (`BLAKE2B`, `SHA512`). -/
structure FetchResult where
  size : Nat
  blake2b : Str
  sha512 : Str
deriving DecidableEq

/-- The distfile download collaborator: URL to stream summary, `none`
modelling a network/IO failure (`requests` exception /
`raise_for_status`). -/
def Fetch := Str → Option FetchResult

/-- Decimal rendering, on fuel (the fuel bounds the number of digits, and
`n + 1` is always enough). -/
def natCharsAux : Nat → Nat → Str
  | 0, _ => []
  | fuel + 1, n =>
    if n < 10 then [Nat.digitChar n]
    else natCharsAux fuel (n / 10) ++ [Nat.digitChar (n % 10)]

/-- Decimal rendering of a number (`f"{size}"`). -/
def natChars (n : Nat) : Str := natCharsAux (n + 1) n

/-- The new `DIST` line appended for a freshly hashed distfile:
`DIST <file> <size> BLAKE2B <digest> SHA512 <digest>\n` (the digest dict
iterates in insertion order, i.e. `MANIFEST_HASH_ALGOS` order). -/
def dist_line (name version : Str) (fr : FetchResult) : Str :=
  str "DIST " ++ source_file name version ++ str " " ++ natChars fr.size
    ++ str " BLAKE2B " ++ fr.blake2b ++ str " SHA512 " ++ fr.sha512 ++ str "\n"

/-- One iteration of the manifest read loop: keep a `DIST` line only when
its filename belongs to a live version (recording that version); keep any
non-`DIST` line.  `none` models the `IndexError` on a line that is
exactly `"DIST"` with no second token.  (The source looks the filename up
in a dict keyed by filename; since `source_file name` is injective,
taking the first live version with that filename is the same value.) -/
def manifestKeepLine (name : Str) (versions : List Str) (acc : List Str × List Str)
    (line : Str) : Option (List Str × List Str) :=
  match splitOnChar ' ' line with
  | [] => none
  | p0 :: restParts =>
    if p0 = str "DIST" then
      match restParts with
      | [] => none
      | p1 :: _ =>
        match versions.find? (fun v => source_file name v == p1) with
        | some v => some (acc.1 ++ [line], acc.2 ++ [v])
        | none => some acc
    else some (acc.1 ++ [line], acc.2)

/-- The manifest read loop of `update_manifest`, from a given accumulator. -/
def manifestKeepGo (name : Str) (versions : List Str) :
    List Str → List Str × List Str → Option (List Str × List Str)
  | [], acc => some acc
  | line :: rest, acc =>
    match manifestKeepLine name versions acc line with
    | some acc' => manifestKeepGo name versions rest acc'
    | none => none

/-- The manifest read loop of `update_manifest`: returns the kept lines and
`versions_in_manifest`. -/
def manifestKeep (name : Str) (versions : List Str) (lines : List Str) :
    Option (List Str × List Str) :=
  manifestKeepGo name versions lines ([], [])

/-- The iteration order of the Python set difference
`versions - versions_in_manifest`: a function of the two collections
chosen by the runtime (string hashing is randomized per process), so an
explicit model parameter. -/
def Pick := List Str → List Str → List Str

/-- `pick` enumerates exactly the elements of `a` not in `b`, each once.
Any run of the Python code iterates its set difference in some order
satisfying this. -/
def ValidPick (pick : Pick) : Prop :=
  ∀ a b, (pick a b).Nodup ∧ ∀ v, v ∈ pick a b ↔ v ∈ a ∧ v ∉ b

/-- One valid `pick`: first occurrences, in list order. -/
def pickDedup : Pick := fun a b => (a.filter (fun v => !(b.any (· == v)))).dedup

/-- Another valid `pick`: the same elements in the opposite order.  Both
orders (and any other) occur in practice, depending on the process's
string hash seed. -/
def pickRev : Pick := fun a b => (pickDedup a b).reverse

/-- `update_manifest(ebuild_dir, name)` from `scripts/update_ebuilds.py`:
extract the live versions, re-read the manifest keeping only `DIST` lines
of live distfiles, download and hash a distfile for every live version
without a kept entry, and only then rewrite the manifest file.  `none`
models any raised exception (unparseable recipe filename, missing
manifest, malformed `DIST` line, download failure); the directory is
unchanged in that case because the single write happens after every new
entry has been computed, exactly as in the source. -/
def update_manifest (name : Str) (fetch : Fetch) (pick : Pick) (dir : Dir) :
    Option Dir := do
  let versions ← mapO extract_version (globEbuilds dir)
  let content ← lookupFile dir (str "Manifest")
  let (new_lines, versions_in_manifest) ← manifestKeep name versions (manifestLines content)
  let added ← mapO (fun v => (fetch (source_url name v)).map (dist_line name v))
    (pick versions versions_in_manifest)
  pure (setFile dir (str "Manifest") (joinAll (new_lines ++ added)))

/-- Decode a version from a distfile name: the middle of
`<name>_<version>_amd64.deb`. -/
def decode_dist_file (name f : Str) : Option Str :=
  if (name ++ str "_").isPrefixOf f
      && endsWithL (f.drop (name.length + 1)) (str "_amd64.deb")
      && decide (name.length + 1 + 10 ≤ f.length) then
    some ((f.drop (name.length + 1)).take (f.length - (name.length + 1) - 10))
  else none

/-- The distfile name a manifest line records, when it is a `DIST` entry. -/
def dist_entry_file (line : Str) : Option Str :=
  match splitOnChar ' ' line with
  | p0 :: p1 :: _ => if p0 = str "DIST" then some p1 else none
  | _ => none

/-- The version a manifest line records, when it is a `DIST` entry whose
filename decodes for this package. -/
def dist_entry_version (name : Str) (line : Str) : Option Str :=
  match splitOnChar ' ' line with
  | p0 :: p1 :: _ => if p0 = str "DIST" then decode_dist_file name p1 else none
  | _ => none

/-- The versions decoded from a manifest content's `DIST` entries, in line
order (with multiplicity). -/
def manifest_versions (name : Str) (content : Str) : List Str :=
  (manifestLines content).filterMap (dist_entry_version name)

/-! ## The release feed (`get_latest_releases`) -/

/-- One entry of the upstream release feed, with the fields the scripts
consume: the human-readable title (`name`), the tag, and the published
asset filenames. -/
structure Release where
  name : Str
  tag_name : Str
  assets : List Str
deriving DecidableEq

/-- The scan state of `get_latest_releases`: the `releases` dict (one
optional version per channel) plus `releases_found`. -/
structure RelState where
  stable : Option Str
  beta : Option Str
  nightly : Option Str
  found : Nat
deriving DecidableEq

/-- `releases[channel]`. -/
def RelState.get (st : RelState) : Chan → Option Str
  | .stable => st.stable
  | .beta => st.beta
  | .nightly => st.nightly

/-- `releases[channel] = version`. -/
def RelState.set (st : RelState) : Chan → Str → RelState
  | .stable, v => { st with stable := some v }
  | .beta, v => { st with beta := some v }
  | .nightly, v => { st with nightly := some v }

/-- Python truthiness of `releases[channel]`: falsy when unset (`None`) or
set to the empty string. -/
def falsyOpt : Option Str → Bool
  | none => true
  | some s => s.isEmpty

/-- The body of the inner channel loop of `get_latest_releases` for one
release and one channel: if the channel is still unset and the release's
title starts with the channel's prefix, assert the tag starts with `v`
(`none` models the `AssertionError`, or the `IndexError` on an empty
tag), and accept the version only when the expected distributable
filename is among the release's assets. -/
def procChannel (r : Release) (st : RelState) (c : Chan) : Option RelState :=
  if falsyOpt (st.get c) && (channel_title c).isPrefixOf r.name then
    match r.tag_name with
    | 'v' :: version =>
      if r.assets.any (fun a => a == source_file (make_name_from_channel c) version) then
        some { st.set c version with found := st.found + 1 }
      else some st
    | _ => none
  else some st

/-- Process one feed release against every channel, in `CHANNELS` order
(the inner `for channel, title in CHANNELS_WITH_TITLE` loop, unrolled). -/
def procRelease (st : RelState) (r : Release) : Option RelState := do
  let s1 ← procChannel r st .stable
  let s2 ← procChannel r s1 .beta
  procChannel r s2 .nightly

/-- Process the releases of one feed page, stopping early once every
channel is found (`releases_found == len(releases)`). -/
def procPage (st : RelState) : List Release → Option RelState
  | [] => some st
  | r :: rest => do
    let st' ← procRelease st r
    if st'.found = 3 then some st' else procPage st' rest

/-- `MAX_PAGES` of `get_latest_releases`. -/
def MAX_PAGES : Nat := 5

/-- The pagination loop: follow `next` links (the tail of the page list)
while pages remain and fewer than `MAX_PAGES` pages have been fetched,
stopping early once every channel is found. -/
def procPages (st : RelState) : List (List Release) → Nat → Option RelState
  | [], _ => some st
  | p :: rest, page =>
    if page < MAX_PAGES then do
      let st' ← procPage st p
      if st'.found = 3 then some st' else procPages st' rest (page + 1)
    else some st

/-- `get_latest_releases()`, as a function of the paginated feed.  `none`
models a raised exception: a malformed tag on a considered release, or
the final `RuntimeError` when `releases_found` is not exactly the number
of channels. -/
def get_latest_releases (pages : List (List Release)) : Option RelState := do
  let st ← procPages ⟨none, none, none, 0⟩ pages 0
  if st.found = 3 then some st else none

/-! ## The orchestrator (`update_ebuilds`, `prune_ebuilds`) -/

/-- Python string formatting of the optional resolved version
(`"{version}"` renders `None` as `"None"`). -/
def verStr : Option Str → Str
  | some v => v
  | none => str "None"

/-- `get_new_releases(releases, repo_dir)`: the channels (in `releases`
dict order, which is `CHANNELS` order) whose resolved version has no
recipe file yet.  (`None in ebuild_versions` is `False` in Python, so an
unresolved channel counts as new.) -/
def get_new_releases_go (rel : RelState) (repo : Repo) :
    List Chan → List (Chan × Option Str) → Option (List (Chan × Option Str))
  | [], acc => some acc
  | c :: cs, acc => do
    let ebuilds ← get_ebuilds c repo
    let versions ← mapO extract_version ebuilds
    let keep :=
      match rel.get c with
      | some v => versions.any (· == v)
      | none => false
    get_new_releases_go rel repo cs (if keep then acc else acc ++ [(c, rel.get c)])

/-- See `get_new_releases_go`. -/
def get_new_releases (rel : RelState) (repo : Repo) : Option (List (Chan × Option Str)) :=
  get_new_releases_go rel repo CHANNELS []

/-- The recipe-store "add" used by `add_ebuilds_for_new_releases`: locate
the latest recipe (`get_ebuilds(..., only_latest=True)`; the `[-1]`
indexing raises `IndexError` on an empty channel, making the source's
`len(ebuilds) == 0` check dead code) and `shutil.copy` its content to the
file named for the new version.  `shutil.copy` overwrites an existing
destination file silently. -/
def store_add (name version : Str) (dir : Dir) : Option Dir := do
  let ebuilds ← get_ebuilds_dir dir
  let latest ← ebuilds.getLast?
  let content ← lookupFile dir latest
  pure (setFile dir (ebuild_file name version) content)

/-- `add_ebuilds_for_new_releases`: for each new release (in dict order),
clone the latest recipe to the new version's file, then reconcile the
channel's manifest.  (The optional git-commit side effects are external
collaborators and not modelled.) -/
def add_ebuilds_for_new_releases (fetch : Fetch) (pick : Pick) :
    List (Chan × Option Str) → Repo → Option Repo
  | [], repo => some repo
  | cv :: rest, repo => do
    let name := make_name_from_channel cv.1
    let dir1 ← store_add name (verStr cv.2) (repo.dirOf cv.1)
    let dir2 ← update_manifest name fetch pick dir1
    add_ebuilds_for_new_releases fetch pick rest (repo.setDir cv.1 dir2)

/-- `update_ebuilds`: fetch the latest releases, diff them against the
store, and add the new ones. -/
def update_ebuilds (fetch : Fetch) (pick : Pick) (pages : List (List Release))
    (repo : Repo) : Option Repo := do
  let releases ← get_latest_releases pages
  let new_releases ← get_new_releases releases repo
  add_ebuilds_for_new_releases fetch pick new_releases repo

/-- The removal loop of `prune_ebuilds`: unlink each doomed recipe, then
record its extracted version (in that order, as in the source). -/
def prune_channel_files (acc : Dir × List Str) : List Str → Option (Dir × List Str)
  | [] => some acc
  | f :: rest => do
    let d := removeFiles acc.1 [f]
    let v ← extract_version f
    prune_channel_files (d, acc.2 ++ [v]) rest

/-- The per-channel body of `prune_ebuilds`: when the channel holds more
than one recipe, remove all but the last of the version-sorted listing
and reconcile the manifest; otherwise leave the directory untouched. -/
def prune_channel (name : Str) (fetch : Fetch) (pick : Pick) (dir : Dir) :
    Option (Dir × List Str) := do
  let ebuilds ← get_ebuilds_dir dir
  if 1 < ebuilds.length then do
    let (dir1, dropped) ← prune_channel_files (dir, []) ebuilds.dropLast
    let dir2 ← update_manifest name fetch pick dir1
    pure (dir2, dropped)
  else pure (dir, [])

/-- `prune_ebuilds`: prune each eligible channel (all channels, or the
externally supplied list of channels whose tests passed), returning the
new repository state and the record of dropped versions per channel. -/
def prune_ebuilds_go (fetch : Fetch) (pick : Pick) :
    List Chan → Repo × List (Chan × List Str) → Option (Repo × List (Chan × List Str))
  | [], acc => some acc
  | c :: cs, acc => do
    let (dir', dropped) ← prune_channel (make_name_from_channel c) fetch pick (acc.1.dirOf c)
    prune_ebuilds_go fetch pick cs
      (acc.1.setDir c dir', if dropped.isEmpty then acc.2 else acc.2 ++ [(c, dropped)])

/-- See `prune_ebuilds_go`. -/
def prune_ebuilds (fetch : Fetch) (pick : Pick) (channels : List Chan)
    (repo : Repo) : Option (Repo × List (Chan × List Str)) :=
  prune_ebuilds_go fetch pick channels (repo, [])

/-! ## Predicates about the release feed, used to state properties -/

/-- Does a feed release match a channel: its title starts with the
channel's prefix, its tag is `v` followed by a version, and its assets
contain the expected distributable filename for that version? -/
def releaseMatches (c : Chan) (r : Release) : Bool :=
  (channel_title c).isPrefixOf r.name &&
    (match r.tag_name with
     | 'v' :: ver => r.assets.any (· == source_file (make_name_from_channel c) ver)
     | _ => false)

/-- The releases the pagination loop can ever look at: the first
`MAX_PAGES` pages, flattened in feed order. -/
def scannedReleases (pages : List (List Release)) : List Release :=
  (pages.take MAX_PAGES).flatten

/-- `v` is the version of the first release in `P` matching channel `c`. -/
def FirstMatchIn (P : List Release) (c : Chan) (v : Str) : Prop :=
  ∃ l₁ r l₂, P = l₁ ++ r :: l₂ ∧ releaseMatches c r = true ∧ r.tag_name = 'v' :: v ∧
    ∀ r' ∈ l₁, releaseMatches c r' = false

/-- No release of `P` matches channel `c`. -/
def NoMatchIn (P : List Release) (c : Chan) : Prop :=
  ∀ r ∈ P, releaseMatches c r = false

/-- The scan-state invariant of `get_latest_releases` after processing the
releases `P`, when no processed tag is the bare `v`: every resolved
channel holds the (non-empty) version of its first matching release, and
an unresolved channel has no matching release yet. -/
def GoodScan (P : List Release) (st : RelState) : Prop :=
  ∀ c : Chan, (∀ v, st.get c = some v → v ≠ [] ∧ FirstMatchIn P c v)
    ∧ (st.get c = none → NoMatchIn P c)

/-- A channel is up to date in a directory: the directory's recipe listing
sorts, every listed recipe's version extracts, and the channel's resolved
version is among the extracted versions — exactly the situation in which
`get_new_releases` keeps the channel out of its result. -/
def channel_ready (rel : RelState) (c : Chan) (d : Dir) : Prop :=
  ∃ e vs v, get_ebuilds_dir d = some e ∧ mapO extract_version e = some vs ∧
    rel.get c = some v ∧ vs.any (· == v) = true

/-! ## Sanity checks of the version codec -/

example : extract_version (str "brave-browser-1.2.3.ebuild") = some (str "1.2.3") := by
  decide

example : extract_version (str "www-client/brave-browser/brave-browser-1.2.3.ebuild")
    = some (str "1.2.3") := by decide

example : extract_version (str "x-7.ebuild") = none := by decide

example : version_key (str "brave-browser-1.2.3.ebuild") = some [1, 2, 3, 0] := by decide

/-! ## Helper lemmas -/

theorem mapO_eq_none_of_mem {α β : Type} (g : α → Option β) {l : List α} {x : α}
    (hx : x ∈ l) (hg : g x = none) : mapO g l = none := by
  induction l with
  | nil => cases hx
  | cons a as ih =>
    rcases List.mem_cons.mp hx with rfl | hx'
    · unfold mapO; rw [hg]
    · unfold mapO; rw [ih hx']; cases g a <;> rfl

theorem mapO_mem_some {α β : Type} {g : α → Option β} :
    ∀ {l : List α} {r : List β}, mapO g l = some r →
      ∀ {x : α}, x ∈ l → ∃ y, g x = some y ∧ y ∈ r := by
  intro l
  induction l with
  | nil => intro r _ x hx; cases hx
  | cons a as ih =>
    intro r h x hx
    unfold mapO at h
    cases hga : g a with
    | none => rw [hga] at h; exact absurd h (by simp)
    | some y =>
      rw [hga] at h
      cases has : mapO g as with
      | none => rw [has] at h; exact absurd h (by simp)
      | some ys =>
        rw [has] at h
        simp only [Option.some.injEq] at h
        subst h
        rcases List.mem_cons.mp hx with rfl | hx'
        · exact ⟨y, hga, List.mem_cons_self _ _⟩
        · obtain ⟨y', hy', hmem⟩ := ih has hx'
          exact ⟨y', hy', List.mem_cons_of_mem _ hmem⟩

theorem mem_of_mapO_some {α β : Type} {g : α → Option β} :
    ∀ {l : List α} {r : List β}, mapO g l = some r →
      ∀ {y : β}, y ∈ r → ∃ x, x ∈ l ∧ g x = some y := by
  intro l
  induction l with
  | nil =>
    intro r h y hy
    unfold mapO at h
    simp only [Option.some.injEq] at h
    subst h; cases hy
  | cons a as ih =>
    intro r h y hy
    unfold mapO at h
    cases hga : g a with
    | none => rw [hga] at h; exact absurd h (by simp)
    | some z =>
      rw [hga] at h
      cases has : mapO g as with
      | none => rw [has] at h; exact absurd h (by simp)
      | some ys =>
        rw [has] at h
        simp only [Option.some.injEq] at h
        subst h
        rcases List.mem_cons.mp hy with rfl | hy'
        · exact ⟨a, List.mem_cons_self _ _, hga⟩
        · obtain ⟨x, hx, hgx⟩ := ih has hy'
          exact ⟨x, List.mem_cons_of_mem _ hx, hgx⟩

theorem mapO_isSome_of_forall {α β : Type} {g : α → Option β} :
    ∀ {l : List α}, (∀ x ∈ l, (g x).isSome) → (mapO g l).isSome := by
  intro l
  induction l with
  | nil => intro _; rfl
  | cons a as ih =>
    intro h
    have ha := h a (List.mem_cons_self _ _)
    have has := ih fun x hx => h x (List.mem_cons_of_mem _ hx)
    unfold mapO
    cases hga : g a with
    | none => rw [hga] at ha; cases ha
    | some y =>
      cases hmas : mapO g as with
      | none => rw [hmas] at has; cases has
      | some ys => rfl

theorem stableInsert_perm {α : Type} (lt : α → α → Bool) (x : α) :
    ∀ l : List α, (stableInsert lt x l).Perm (x :: l) := by
  intro l
  induction l with
  | nil => exact List.Perm.refl _
  | cons y ys ih =>
    unfold stableInsert
    cases h : lt x y with
    | true => rw [if_pos rfl]
    | false =>
      rw [if_neg (by simp)]
      exact (ih.cons y).trans (List.Perm.swap x y ys)

theorem stableSortGo_perm {α : Type} (lt : α → α → Bool) :
    ∀ (l acc : List α), (stableSortGo lt l acc).Perm (l ++ acc) := by
  intro l
  induction l with
  | nil => intro acc; exact List.Perm.refl _
  | cons x xs ih =>
    intro acc
    have h1 := ih (stableInsert lt x acc)
    have h2 := List.Perm.append_left xs (stableInsert_perm lt x acc)
    have h3 : (xs ++ (x :: acc)).Perm (x :: (xs ++ acc)) := List.perm_middle
    exact (h1.trans (h2.trans h3))

theorem stableSort_perm {α : Type} (lt : α → α → Bool) (l : List α) :
    (stableSort lt l).Perm l := by
  simpa [stableSort] using stableSortGo_perm lt l []

theorem mapO_decorate_snd {files : List Str} {keyed : List (List Nat × Str)}
    (h : mapO (fun f => (version_key f).map (fun k => ((k, f) : List Nat × Str))) files
      = some keyed) : keyed.map (·.2) = files := by
  induction files generalizing keyed with
  | nil =>
    unfold mapO at h
    simp only [Option.some.injEq] at h
    subst h; rfl
  | cons f fs ih =>
    unfold mapO at h
    cases hvk : version_key f with
    | none => rw [hvk] at h; exact absurd h (by simp)
    | some k =>
      rw [hvk] at h
      cases hfs : mapO (fun f => (version_key f).map (fun k => ((k, f) : List Nat × Str))) fs with
      | none => rw [hfs] at h; exact absurd h (by simp)
      | some ys =>
        rw [hfs] at h
        have h' : some (((k, f) : List Nat × Str) :: ys) = some keyed := h
        have h'' := (Option.some.inj h').symm
        subst h''
        simp only [List.map_cons]
        exact congrArg (f :: ·) (ih hfs)

theorem sortedEbuilds_perm {files sorted : List Str}
    (h : sortedEbuilds files = some sorted) : sorted.Perm files := by
  unfold sortedEbuilds at h
  cases hk : mapO (fun f => (version_key f).map (fun k => ((k, f) : List Nat × Str))) files with
  | none => rw [hk] at h; exact absurd h (by simp)
  | some keyed =>
    rw [hk] at h
    have h' : some ((stableSort (fun a b => natKeyLT a.1 b.1) keyed).map (·.2))
        = some sorted := h
    have h'' := Option.some.inj h'
    subst h''
    have hperm := (stableSort_perm (fun a b => natKeyLT a.1 b.1) keyed).map (·.2)
    rw [mapO_decorate_snd hk] at hperm
    exact hperm

theorem sortedEbuilds_mem {files sorted : List Str}
    (h : sortedEbuilds files = some sorted) : ∀ f, f ∈ sorted ↔ f ∈ files :=
  fun _ => (sortedEbuilds_perm h).mem_iff

theorem setFile_of_absent {d : Dir} {f c : Str} (h : ∀ kv ∈ d, kv.1 ≠ f) :
    setFile d f c = d ++ [(f, c)] := by
  unfold setFile
  rw [if_neg]
  intro hany
  obtain ⟨kv, hkv, hbeq⟩ := List.any_eq_true.mp hany
  exact h kv hkv (by simpa using hbeq)

/-! ## C2: `version_key` and revision suffixes -/

/-- **C2.**  The claim says `version_key` compares numeric components
first and the revision last, with a higher revision sorting greater when
the numeric components agree.  In the code this fails: the character
class of `_VERSION_REGEX` (`[\d\.-r]`, i.e. the range `.`–`r`, which
excludes `-`) makes `extract_version` stop at the `-` of a `-r<N>`
suffix, so `version_key`'s revision-splitting branch never sees a
revision and every key ends in revision `0`.  Two recipes with equal
numeric components and different revisions get identical sort keys. -/
theorem version_key_ignores_revision :
    version_key (str "brave-browser-1.0.0-r1.ebuild") = some [1, 0, 0, 0]
      ∧ version_key (str "brave-browser-1.0.0-r2.ebuild") = some [1, 0, 0, 0]
      ∧ extract_version (str "brave-browser-1.0.0-r1.ebuild") = some (str "1.0.0") := by
  refine ⟨by decide, by decide, by decide⟩

/-! ## C7: the filename/version round trip -/

/-- **C7.**  The claim says formatting any version (numeric dot-separated
components with an optional `-r<digits>` revision) into
`<name>-<version>.ebuild` and re-extracting yields the version back.  In
the code the round trip fails for every version carrying a revision (the
regex's character class excludes `-`, so the `-r<N>` tail is cut off,
even though `version_key` contains an explicit `-r` parser for exactly
such suffixes), and also for single-digit versions (the regex demands at
least two characters after the leading `-`). -/
theorem extract_version_roundtrip_fails :
    extract_version (ebuild_file (str "brave-browser") (str "1.0.0-r1"))
        = some (str "1.0.0")
      ∧ extract_version (ebuild_file (str "brave-browser") (str "7")) = none := by
  refine ⟨by decide, by decide⟩

/-! ## C3: the store's add operation -/

/-- **C3** counterexample.  The claim says the add operation fails with a
duplicate-recipe error and does not overwrite when a recipe file for the
version already exists.  The code has no such check: `shutil.copy`
silently overwrites.  Here a recipe for `1.0.0` exists with content
`OLD`; `store_add` for version `1.0.0` succeeds and replaces it with the
latest recipe's content `NEW`. -/
theorem store_add_overwrites_existing_recipe :
    (store_add (str "brave-browser") (str "1.0.0")
        [(str "brave-browser-1.0.0.ebuild", str "OLD"),
         (str "brave-browser-2.0.0.ebuild", str "NEW")]).bind
      (fun d => lookupFile d (str "brave-browser-1.0.0.ebuild"))
      = some (str "NEW")
    ∧ lookupFile
        [(str "brave-browser-1.0.0.ebuild", str "OLD"),
         (str "brave-browser-2.0.0.ebuild", str "NEW")]
        (str "brave-browser-1.0.0.ebuild") = some (str "OLD") := by
  refine ⟨by decide, by decide⟩

/-- **C3** as amended.  The add operation performs no duplicate check and
will overwrite; however, when invoked for a version that has no live
recipe in the directory — the only way the orchestrator invokes it,
since `get_new_releases` filters out versions that already have a
recipe — it clones the latest recipe's content into a freshly created
file and leaves every existing file untouched. -/
theorem store_add_fresh_version_clones_latest
    {name version : Str} {dir : Dir} {vs : List Str} {dir' : Dir}
    (hvs : mapO extract_version (globEbuilds dir) = some vs)
    (hnew : version ∉ vs)
    (hrt : extract_version (ebuild_file name version) = some version)
    (heb : isEbuildName (ebuild_file name version) = true)
    (h : store_add name version dir = some dir') :
    ∃ ebuilds latest content,
      get_ebuilds_dir dir = some ebuilds ∧ ebuilds.getLast? = some latest ∧
      lookupFile dir latest = some content ∧
      dir' = dir ++ [(ebuild_file name version, content)] := by
  simp only [store_add, Option.pure_def, Option.bind_eq_bind, Option.bind_eq_some,
    Option.some.injEq] at h
  obtain ⟨ebuilds, hge, latest, hl, content, hc, hset⟩ := h
  have habs : ∀ kv ∈ dir, kv.1 ≠ ebuild_file name version := by
    intro kv hkv heq
    have hglob : ebuild_file name version ∈ globEbuilds dir := by
      unfold globEbuilds
      exact List.mem_filter.mpr ⟨List.mem_map.mpr ⟨kv, hkv, heq⟩, heb⟩
    obtain ⟨y, hy, hymem⟩ := mapO_mem_some hvs hglob
    rw [hrt] at hy
    exact hnew (Option.some.inj hy ▸ hymem)
  rw [setFile_of_absent habs] at hset
  exact ⟨ebuilds, latest, content, hge, hl, hc, hset.symm⟩

/-- **C3** witness: the amended theorem applied to a one-recipe directory
and the fresh version `2.0.0`. -/
theorem store_add_fresh_version_witness :
    ∃ ebuilds latest content,
      get_ebuilds_dir [(str "brave-browser-1.0.0.ebuild", str "C")] = some ebuilds
      ∧ ebuilds.getLast? = some latest
      ∧ lookupFile [(str "brave-browser-1.0.0.ebuild", str "C")] latest = some content
      ∧ ([(str "brave-browser-1.0.0.ebuild", str "C"),
          (str "brave-browser-2.0.0.ebuild", str "C")] : Dir)
        = [(str "brave-browser-1.0.0.ebuild", str "C")]
            ++ [(ebuild_file (str "brave-browser") (str "2.0.0"), content)] :=
  @store_add_fresh_version_clones_latest (str "brave-browser") (str "2.0.0")
    [(str "brave-browser-1.0.0.ebuild", str "C")] [str "1.0.0"]
    [(str "brave-browser-1.0.0.ebuild", str "C"),
     (str "brave-browser-2.0.0.ebuild", str "C")]
    (by decide) (by decide) (by decide) (by decide) (by decide)

/-! ## C4: reconciliation is all-or-nothing under fetch failure -/

/-- **C4.**  If, during reconciliation, the download of any needed
distfile fails (`fetch` returns `none` for the URL of a version that the
set difference asks to be added), the whole `update_manifest` run fails.
In the model, as in the source, the single write of the manifest file
happens only after every new entry has been computed, so a failed run
returns `none` and no directory state with a partially rewritten
manifest exists. -/
theorem update_manifest_fetch_failure
    {name : Str} {fetch : Fetch} {pick : Pick} {dir : Dir}
    {versions : List Str} {content : Str} {kept inman : List Str} {v : Str}
    (hv : mapO extract_version (globEbuilds dir) = some versions)
    (hc : lookupFile dir (str "Manifest") = some content)
    (hk : manifestKeep name versions (manifestLines content) = some (kept, inman))
    (hmem : v ∈ pick versions inman)
    (hfail : fetch (source_url name v) = none) :
    update_manifest name fetch pick dir = none := by
  have hadd : mapO (fun v => (fetch (source_url name v)).map (dist_line name v))
      (pick versions inman) = none :=
    mapO_eq_none_of_mem _ hmem (by rw [hfail]; rfl)
  simp [update_manifest, hv, hc, hk, hadd]

/-- **C4** witness: a directory with a recipe for `1.0.0`, an empty
manifest, and a failing downloader; reconciliation fails. -/
theorem update_manifest_fetch_failure_witness :
    update_manifest (str "brave-browser") (fun _ => none) pickDedup
      [(str "brave-browser-1.0.0.ebuild", str "C"), (str "Manifest", str "")] = none :=
  @update_manifest_fetch_failure (str "brave-browser") (fun _ => none) pickDedup
    [(str "brave-browser-1.0.0.ebuild", str "C"), (str "Manifest", str "")]
    [str "1.0.0"] (str "") [] [] (str "1.0.0")
    (by decide) (by decide) (by decide) (by decide) rfl

/-! ## C9: reconciliation output order -/

theorem validPick_pickDedup : ValidPick pickDedup := by
  intro a b
  refine ⟨List.nodup_dedup _, fun v => ?_⟩
  simp [pickDedup, List.mem_filter]
  exact fun _ => ⟨fun h hv => h v hv rfl, fun h x hx heq => h (heq ▸ hx)⟩

theorem validPick_pickRev : ValidPick pickRev := by
  intro a b
  obtain ⟨hnd, hmem⟩ := validPick_pickDedup a b
  exact ⟨by simpa [pickRev] using hnd, fun v => by simpa [pickRev] using hmem v⟩

/-! ## C5: pruning never empties a channel -/

theorem removeFiles_nil (d : Dir) : removeFiles d [] = d := by
  simp [removeFiles]

theorem removeFiles_cons (d : Dir) (f : Str) (rest : List Str) :
    removeFiles (removeFiles d [f]) rest = removeFiles d (f :: rest) := by
  simp only [removeFiles, List.filter_filter]
  congr 1
  funext kv
  cases h1 : f == kv.1 <;> cases h2 : rest.any (· == kv.1) <;> simp [h1, h2]

theorem prune_channel_files_fst :
    ∀ (doomed : List Str) (d0 : Dir) (vs0 : List Str) (out : Dir × List Str),
      prune_channel_files (d0, vs0) doomed = some out → out.1 = removeFiles d0 doomed := by
  intro doomed
  induction doomed with
  | nil =>
    intro d0 vs0 out h
    unfold prune_channel_files at h
    rw [removeFiles_nil]
    exact (congrArg Prod.fst (Option.some.inj h)).symm
  | cons f rest ih =>
    intro d0 vs0 out h
    unfold prune_channel_files at h
    cases hv : extract_version f with
    | none => rw [hv] at h; exact absurd h (by simp)
    | some v =>
      rw [hv] at h
      have h' : prune_channel_files (removeFiles d0 [f], vs0 ++ [v]) rest = some out := h
      rw [ih _ _ _ h', removeFiles_cons]

theorem map_fst_filter_key (d : Dir) (q : Str → Bool) :
    ((d.filter fun kv => q kv.1).map (·.1)) = (d.map (·.1)).filter q := by
  induction d with
  | nil => rfl
  | cons kv rest ih =>
    cases h : q kv.1 <;> simp [List.filter_cons, h, ih]

theorem globEbuilds_removeFiles (d : Dir) (fs : List Str) :
    globEbuilds (removeFiles d fs)
      = (globEbuilds d).filter (fun g => !(fs.any (· == g))) := by
  unfold globEbuilds removeFiles
  rw [map_fst_filter_key d (fun g => !(fs.any (· == g))), List.filter_filter,
    List.filter_filter]
  congr 1
  funext g
  cases fs.any (· == g) <;> cases isEbuildName g <;> rfl

theorem globEbuilds_setFile_not_ebuild {f : Str} (hf : isEbuildName f = false)
    (d : Dir) (c : Str) : globEbuilds (setFile d f c) = globEbuilds d := by
  unfold setFile
  by_cases h : d.any (fun kv => kv.1 == f) = true
  · rw [if_pos h]
    unfold globEbuilds
    congr 1
    rw [List.map_map]
    apply List.map_congr_left
    intro kv _
    by_cases hkv : kv.1 == f
    · simp only [Function.comp_apply, if_pos hkv]
      exact (beq_iff_eq.mp hkv).symm
    · simp only [Function.comp_apply, if_neg hkv]
  · rw [if_neg h]
    unfold globEbuilds
    rw [List.map_append, List.filter_append]
    simp [hf]

theorem update_manifest_globEbuilds {name : Str} {fetch : Fetch} {pick : Pick}
    {dir dir' : Dir} (h : update_manifest name fetch pick dir = some dir') :
    globEbuilds dir' = globEbuilds dir := by
  simp only [update_manifest, Option.pure_def, Option.bind_eq_bind, Option.bind_eq_some,
    Option.some.injEq] at h
  obtain ⟨versions, hv, content, hc, ⟨kept, inman⟩, hk, added, ha, hset⟩ := h
  rw [← hset]
  exact globEbuilds_setFile_not_ebuild (by decide) dir _

theorem globEbuilds_nodup {d : Dir} (hnd : (d.map (·.1)).Nodup) :
    (globEbuilds d).Nodup := hnd.filter _

theorem prune_channel_spec {name : Str} {fetch : Fetch} {pick : Pick} {dir : Dir}
    {out : Dir × List Str}
    (hnd : (dir.map (·.1)).Nodup)
    (h : prune_channel name fetch pick dir = some out) :
    ∃ sorted, get_ebuilds_dir dir = some sorted ∧
      ((1 < sorted.length ∧ ∃ l, sorted.getLast? = some l ∧ globEbuilds out.1 = [l])
        ∨ (sorted.length ≤ 1 ∧ out.1 = dir)) := by
  simp only [prune_channel, Option.pure_def, Option.bind_eq_bind, Option.bind_eq_some] at h
  obtain ⟨sorted, hs, h⟩ := h
  refine ⟨sorted, hs, ?_⟩
  by_cases hlen : 1 < sorted.length
  · left
    rw [if_pos hlen] at h
    simp only [Option.bind_eq_some, Option.some.injEq] at h
    obtain ⟨⟨dir1, dropped⟩, hpf, dir2, hum, hout⟩ := h
    have hperm : sorted.Perm (globEbuilds dir) := sortedEbuilds_perm hs
    have hnds : sorted.Nodup := hperm.nodup_iff.mpr (globEbuilds_nodup hnd)
    have hne : sorted ≠ [] := by
      intro e; rw [e] at hlen; exact absurd hlen (by simp)
    have hl : sorted.getLast? = some (sorted.getLast hne) :=
      List.getLast?_eq_getLast sorted hne
    refine ⟨hlen, sorted.getLast hne, hl, ?_⟩
    have h1 : globEbuilds out.1 = globEbuilds dir1 := by
      rw [← hout]
      exact update_manifest_globEbuilds hum
    have h2 : dir1 = removeFiles dir sorted.dropLast :=
      prune_channel_files_fst _ _ _ _ hpf
    rw [h1, h2, globEbuilds_removeFiles]
    have hsl : sorted.dropLast ++ [sorted.getLast hne] = sorted :=
      List.dropLast_append_getLast hne
    have hd : sorted.dropLast.filter (fun g => !(sorted.dropLast.any (· == g))) = [] := by
      rw [List.filter_eq_nil_iff]
      intro a ha h'
      simp only [Bool.not_eq_true'] at h'
      rw [List.any_eq_false] at h'
      have := h' a ha
      simp at this
    have hmem : sorted.getLast hne ∉ sorted.dropLast := by
      have hnd2 := hnds
      rw [← hsl] at hnd2
      exact fun hm =>
        (List.disjoint_of_nodup_append hnd2) hm (List.mem_singleton_self _)
    have hpl : (!(sorted.dropLast.any (· == sorted.getLast hne))) = true := by
      simp only [Bool.not_eq_true', List.any_eq_false]
      intro x hx
      have hne2 : x ≠ sorted.getLast hne := fun e => hmem (e ▸ hx)
      exact fun hbeq => hne2 (beq_iff_eq.mp hbeq)
    have hfs : sorted.filter (fun g => !(sorted.dropLast.any (· == g)))
        = [sorted.getLast hne] := by
      have hcong := congrArg (List.filter (fun g => !(sorted.dropLast.any (· == g)))) hsl
      rw [List.filter_append, hd] at hcong
      rw [← hcong]
      simp [List.filter_cons, hpl]
    have hpf2 := hperm.filter (fun g => !(sorted.dropLast.any (· == g)))
    rw [hfs] at hpf2
    exact (List.perm_singleton.mp hpf2.symm)
  · right
    rw [if_neg hlen] at h
    have h' : some (dir, ([] : List Str)) = some out := h
    exact ⟨Nat.le_of_not_lt hlen, (congrArg Prod.fst (Option.some.inj h')).symm⟩

theorem dirOf_setDir_self (r : Repo) (c : Chan) (d : Dir) :
    (r.setDir c d).dirOf c = d := by
  cases c <;> rfl

theorem dirOf_setDir_ne (r : Repo) {c c' : Chan} (h : c ≠ c') (d : Dir) :
    (r.setDir c' d).dirOf c = r.dirOf c := by
  cases c <;> cases c' <;> first | rfl | exact absurd rfl h

theorem prune_go_not_mem {fetch : Fetch} {pick : Pick} :
    ∀ {channels : List Chan} {repo : Repo} {a : List (Chan × List Str)}
      {out : Repo × List (Chan × List Str)},
      prune_ebuilds_go fetch pick channels (repo, a) = some out →
      ∀ {c : Chan}, c ∉ channels → out.1.dirOf c = repo.dirOf c := by
  intro channels
  induction channels with
  | nil =>
    intro repo a out h c _
    have h' : some (repo, a) = some out := h
    rw [← Option.some.inj h']
  | cons ch rest ih =>
    intro repo a out h c hc
    unfold prune_ebuilds_go at h
    cases hp : prune_channel (make_name_from_channel ch) fetch pick (repo.dirOf ch) with
    | none => rw [hp] at h; exact absurd h (by simp)
    | some pr =>
      rw [hp] at h
      obtain ⟨dir', dropped⟩ := pr
      have h' : prune_ebuilds_go fetch pick rest
          (repo.setDir ch dir',
            if dropped.isEmpty then a else a ++ [(ch, dropped)]) = some out := h
      have hrec := ih h' (c := c) (List.not_mem_of_not_mem_cons hc)
      rw [hrec, dirOf_setDir_ne _ (List.ne_of_not_mem_cons hc) _]

theorem prune_go_mem {fetch : Fetch} {pick : Pick} :
    ∀ {channels : List Chan} {repo : Repo} {a : List (Chan × List Str)}
      {out : Repo × List (Chan × List Str)},
      channels.Nodup →
      prune_ebuilds_go fetch pick channels (repo, a) = some out →
      ∀ {c : Chan}, c ∈ channels → ((repo.dirOf c).map (·.1)).Nodup →
      ∃ sorted, get_ebuilds_dir (repo.dirOf c) = some sorted ∧
        ((1 < sorted.length ∧
            ∃ l, sorted.getLast? = some l ∧ globEbuilds (out.1.dirOf c) = [l])
          ∨ (sorted.length ≤ 1 ∧ out.1.dirOf c = repo.dirOf c)) := by
  intro channels
  induction channels with
  | nil => intro repo a out _ _ c hc; cases hc
  | cons ch rest ih =>
    intro repo a out hnd h c hc hndc
    unfold prune_ebuilds_go at h
    cases hp : prune_channel (make_name_from_channel ch) fetch pick (repo.dirOf ch) with
    | none => rw [hp] at h; exact absurd h (by simp)
    | some pr =>
      rw [hp] at h
      obtain ⟨dir', dropped⟩ := pr
      have h' : prune_ebuilds_go fetch pick rest
          (repo.setDir ch dir',
            if dropped.isEmpty then a else a ++ [(ch, dropped)]) = some out := h
      rcases List.mem_cons.mp hc with rfl | hcr
      · have hrest : out.1.dirOf c = (repo.setDir c dir').dirOf c :=
          prune_go_not_mem h' ((List.nodup_cons.mp hnd).1)
        rw [dirOf_setDir_self] at hrest
        obtain ⟨sorted, hs, hcase⟩ := prune_channel_spec hndc hp
        refine ⟨sorted, hs, ?_⟩
        rcases hcase with ⟨hlen, l, hl, hg⟩ | ⟨hlen, heq⟩
        · exact Or.inl ⟨hlen, l, hl, by rw [hrest]; exact hg⟩
        · exact Or.inr ⟨hlen, by rw [hrest]; exact heq⟩
      · have hne : c ≠ ch := by
          rintro rfl; exact (List.nodup_cons.mp hnd).1 hcr
        have hrec := ih (List.nodup_cons.mp hnd).2 h' hcr
          (by rw [dirOf_setDir_ne _ hne]; exact hndc)
        rw [dirOf_setDir_ne _ hne] at hrec
        exact hrec

/-- **C5.**  Starting from a state in which the channel has at least one
recipe, pruning never leaves it with zero recipes: a channel not in the
eligible list is untouched; an eligible channel with more than one
recipe keeps exactly the last element of its version-sorted listing
(every other recipe is removed); an eligible channel with at most one
recipe is left unchanged. -/
theorem prune_never_leaves_channel_empty
    {fetch : Fetch} {pick : Pick} {channels : List Chan} {repo : Repo}
    {out : Repo × List (Chan × List Str)}
    (hch : channels.Nodup)
    (h : prune_ebuilds fetch pick channels repo = some out)
    (c : Chan) (hnd : ((repo.dirOf c).map (·.1)).Nodup) :
    (globEbuilds (repo.dirOf c) ≠ [] → globEbuilds (out.1.dirOf c) ≠ [])
    ∧ (c ∉ channels → out.1.dirOf c = repo.dirOf c)
    ∧ (c ∈ channels →
        ∃ sorted, get_ebuilds_dir (repo.dirOf c) = some sorted ∧
          ((1 < sorted.length ∧
              ∃ l, sorted.getLast? = some l ∧ globEbuilds (out.1.dirOf c) = [l])
            ∨ (sorted.length ≤ 1 ∧ out.1.dirOf c = repo.dirOf c))) := by
  unfold prune_ebuilds at h
  refine ⟨?_, fun hc => prune_go_not_mem h hc, fun hc => prune_go_mem hch h hc hnd⟩
  intro hne
  by_cases hc : c ∈ channels
  · obtain ⟨sorted, _, hcase⟩ := prune_go_mem hch h hc hnd
    rcases hcase with ⟨_, l, _, hg⟩ | ⟨_, heq⟩
    · rw [hg]; simp
    · rw [heq]; exact hne
  · rw [prune_go_not_mem h hc]; exact hne

/-- **C5** witness: pruning a one-recipe stable channel touches nothing and
keeps the recipe. -/
theorem prune_never_leaves_channel_empty_witness :
    (globEbuilds [(str "brave-browser-1.0.0.ebuild", str "A")] ≠ []
      → globEbuilds [(str "brave-browser-1.0.0.ebuild", str "A")] ≠ [])
    ∧ (Chan.stable ∉ [Chan.stable]
      → ([(str "brave-browser-1.0.0.ebuild", str "A")] : Dir)
          = [(str "brave-browser-1.0.0.ebuild", str "A")])
    ∧ (Chan.stable ∈ [Chan.stable]
      → ∃ sorted, get_ebuilds_dir [(str "brave-browser-1.0.0.ebuild", str "A")]
            = some sorted ∧
          ((1 < sorted.length ∧
              ∃ l, sorted.getLast? = some l
                ∧ globEbuilds [(str "brave-browser-1.0.0.ebuild", str "A")] = [l])
            ∨ (sorted.length ≤ 1
              ∧ ([(str "brave-browser-1.0.0.ebuild", str "A")] : Dir)
                  = [(str "brave-browser-1.0.0.ebuild", str "A")]))) :=
  @prune_never_leaves_channel_empty (fun _ => none) pickDedup [Chan.stable]
    ⟨[(str "brave-browser-1.0.0.ebuild", str "A")], [], []⟩
    (⟨[(str "brave-browser-1.0.0.ebuild", str "A")], [], []⟩, [])
    (by decide) (by decide) Chan.stable (by decide)

example : (prune_ebuilds (fun _ => none) pickDedup [.stable]
      ⟨[(str "brave-browser-1.0.0.ebuild", str "A"),
        (str "brave-browser-2.0.0.ebuild", str "B"),
        (str "Manifest", str "DIST brave-browser_2.0.0_amd64.deb 1 BLAKE2B aa SHA512 bb\n")],
       [], []⟩).map
      (fun out => (globEbuilds (out.1.dirOf .stable), out.2))
    = some ([str "brave-browser-2.0.0.ebuild"], [(.stable, [str "1.0.0"])]) := by
  decide

/-! ## C6 and C10: the release feed scan -/

theorem RelState.get_mk_found (st : RelState) (n : Nat) (c : Chan) :
    RelState.get { st with found := n } c = st.get c := by
  cases c <;> rfl

theorem RelState.get_set_self (st : RelState) (c : Chan) (v : Str) :
    (st.set c v).get c = some v := by
  cases c <;> rfl

theorem RelState.get_set_ne (st : RelState) {c c' : Chan} (h : c ≠ c') (v : Str) :
    (st.set c' v).get c = st.get c := by
  cases c <;> cases c' <;> first | rfl | exact absurd rfl h

/-- What one inner-loop step does to its own channel: a non-falsy channel
is left alone; otherwise the release either does not match (title or
asset) and the channel is left alone, or it matches and the channel is
set to the release's tag version. -/
theorem procChannel_get_self {r : Release} {st : RelState} {c : Chan} {st' : RelState}
    (h : procChannel r st c = some st') :
    (falsyOpt (st.get c) = false ∧ st'.get c = st.get c)
    ∨ (falsyOpt (st.get c) = true ∧ releaseMatches c r = false ∧ st'.get c = st.get c)
    ∨ (falsyOpt (st.get c) = true ∧ releaseMatches c r = true
        ∧ ∃ ver, r.tag_name = 'v' :: ver ∧ st'.get c = some ver) := by
  unfold procChannel at h
  split at h
  case isTrue hcond =>
    rw [Bool.and_eq_true] at hcond
    obtain ⟨hfalsy, hprefix⟩ := hcond
    split at h
    next ver heq =>
      split at h
      case isTrue hasset =>
        have hst := Option.some.inj h
        refine Or.inr (Or.inr ⟨hfalsy, ?_, ver, heq, ?_⟩)
        · simp [releaseMatches, heq, hprefix, hasset]
        · rw [← hst, RelState.get_mk_found, RelState.get_set_self]
      case isFalse hasset =>
        have hst := Option.some.inj h
        refine Or.inr (Or.inl ⟨hfalsy, ?_, by rw [← hst]⟩)
        simp only [releaseMatches, heq, hprefix, Bool.true_and]
        exact Bool.not_eq_true _ ▸ hasset
    next hne => exact absurd h (by simp)
  case isFalse hcond =>
    have hst := Option.some.inj h
    cases hf : falsyOpt (st.get c) with
    | false => exact Or.inl ⟨rfl, by rw [← hst]⟩
    | true =>
      have hpre : (channel_title c).isPrefixOf r.name = false := by
        cases hp : (channel_title c).isPrefixOf r.name
        · rfl
        · exact absurd (show (falsyOpt (st.get c)
            && (channel_title c).isPrefixOf r.name) = true by rw [hf, hp]; rfl) hcond
      refine Or.inr (Or.inl ⟨rfl, ?_, by rw [← hst]⟩)
      simp [releaseMatches, hpre]

/-- One inner-loop step leaves every other channel alone. -/
theorem procChannel_get_other {r : Release} {st : RelState} {c' : Chan} {st' : RelState}
    (h : procChannel r st c' = some st') {c : Chan} (hne : c ≠ c') :
    st'.get c = st.get c := by
  unfold procChannel at h
  split at h
  · split at h
    next ver heq =>
      split at h
      · have hst := Option.some.inj h
        rw [← hst, RelState.get_mk_found, RelState.get_set_ne st hne]
      · rw [← Option.some.inj h]
    next => exact absurd h (by simp)
  · rw [← Option.some.inj h]

/-- Across one feed release, a channel is either untouched or set to
the version of that (matching) release. -/
theorem procRelease_resolve {st : RelState} {r : Release} {st' : RelState}
    (h : procRelease st r = some st') (c : Chan) :
    st'.get c = st.get c
    ∨ ∃ ver, r.tag_name = 'v' :: ver ∧ releaseMatches c r = true
        ∧ st'.get c = some ver := by
  simp only [procRelease, Option.bind_eq_bind, Option.bind_eq_some] at h
  obtain ⟨s1, h1, s2, h2, h3⟩ := h
  cases c with
  | stable =>
    have e2 := procChannel_get_other h2 (c := .stable) (by decide)
    have e3 := procChannel_get_other h3 (c := .stable) (by decide)
    rcases procChannel_get_self h1 with ⟨_, he⟩ | ⟨_, _, he⟩ | ⟨_, hm, ver, ht, he⟩
    · left; rw [e3, e2, he]
    · left; rw [e3, e2, he]
    · right; exact ⟨ver, ht, hm, by rw [e3, e2, he]⟩
  | beta =>
    have e1 := procChannel_get_other h1 (c := .beta) (by decide)
    have e3 := procChannel_get_other h3 (c := .beta) (by decide)
    rcases procChannel_get_self h2 with ⟨_, he⟩ | ⟨_, _, he⟩ | ⟨_, hm, ver, ht, he⟩
    · left; rw [e3, he, e1]
    · left; rw [e3, he, e1]
    · right; exact ⟨ver, ht, hm, by rw [e3, he]⟩
  | nightly =>
    have e1 := procChannel_get_other h1 (c := .nightly) (by decide)
    have e2 := procChannel_get_other h2 (c := .nightly) (by decide)
    rcases procChannel_get_self h3 with ⟨_, he⟩ | ⟨_, _, he⟩ | ⟨_, hm, ver, ht, he⟩
    · left; rw [he, e2, e1]
    · left; rw [he, e2, e1]
    · right; exact ⟨ver, ht, hm, he⟩

/-- Across one feed page, a channel is either untouched or set to the
version of some matching release of that page. -/
theorem procPage_resolve :
    ∀ {rs : List Release} {st st' : RelState}, procPage st rs = some st' →
      ∀ c, st'.get c = st.get c
        ∨ ∃ r ∈ rs, ∃ ver, r.tag_name = 'v' :: ver ∧ releaseMatches c r = true
            ∧ st'.get c = some ver := by
  intro rs
  induction rs with
  | nil =>
    intro st st' h c
    exact Or.inl (by rw [← Option.some.inj h])
  | cons r rest ih =>
    intro st st' h c
    unfold procPage at h
    cases h1 : procRelease st r with
    | none => rw [h1] at h; exact absurd h (by simp)
    | some s1 =>
      rw [h1] at h
      have h' : (if s1.found = 3 then some s1 else procPage s1 rest) = some st' := h
      split at h'
      · have hst := Option.some.inj h'
        rcases procRelease_resolve h1 c with he | ⟨ver, ht, hm, he⟩
        · exact Or.inl (by rw [← hst, he])
        · exact Or.inr ⟨r, List.mem_cons_self _ _, ver, ht, hm, by rw [← hst, he]⟩
      · rcases ih h' c with he | ⟨r', hr', ver, ht, hm, he⟩
        · rcases procRelease_resolve h1 c with he2 | ⟨ver, ht, hm, he2⟩
          · exact Or.inl (by rw [he, he2])
          · exact Or.inr ⟨r, List.mem_cons_self _ _, ver, ht, hm, by rw [he, he2]⟩
        · exact Or.inr ⟨r', List.mem_cons_of_mem _ hr', ver, ht, hm, he⟩

/-- Across the pagination loop, a channel is either untouched or set to
the version of some matching release of the feed. -/
theorem procPages_resolve :
    ∀ {pages : List (List Release)} {page : Nat} {st st' : RelState},
      procPages st pages page = some st' →
      ∀ c, st'.get c = st.get c
        ∨ ∃ r ∈ pages.flatten, ∃ ver, r.tag_name = 'v' :: ver
            ∧ releaseMatches c r = true ∧ st'.get c = some ver := by
  intro pages
  induction pages with
  | nil =>
    intro page st st' h c
    exact Or.inl (by rw [← Option.some.inj h])
  | cons p rest ih =>
    intro page st st' h c
    unfold procPages at h
    split at h
    · cases h1 : procPage st p with
      | none => rw [h1] at h; exact absurd h (by simp)
      | some s1 =>
        rw [h1] at h
        have h' : (if s1.found = 3 then some s1 else procPages s1 rest (page + 1))
            = some st' := h
        split at h'
        · have hst := Option.some.inj h'
          rcases procPage_resolve h1 c with he | ⟨r, hr, ver, ht, hm, he⟩
          · exact Or.inl (by rw [← hst, he])
          · exact Or.inr ⟨r, by
              exact List.mem_flatten.mpr ⟨p, List.mem_cons_self _ _, hr⟩,
              ver, ht, hm, by rw [← hst, he]⟩
        · rcases ih h' c with he | ⟨r', hr', ver, ht, hm, he⟩
          · rcases procPage_resolve h1 c with he2 | ⟨r, hr, ver, ht, hm, he2⟩
            · exact Or.inl (by rw [he, he2])
            · exact Or.inr ⟨r, by
                exact List.mem_flatten.mpr ⟨p, List.mem_cons_self _ _, hr⟩,
                ver, ht, hm, by rw [he, he2]⟩
          · refine Or.inr ⟨r', ?_, ver, ht, hm, he⟩
            obtain ⟨q, hq, hrq⟩ := List.mem_flatten.mp hr'
            exact List.mem_flatten.mpr ⟨q, List.mem_cons_of_mem _ hq, hrq⟩
    · exact Or.inl (by rw [← Option.some.inj h])

/-- **C6.**  `get_latest_releases` resolves a channel to a version only on
the evidence of a feed release whose title starts with the channel's
configured prefix, whose tag is `v` followed by that version, and whose
published asset list contains the exact expected distributable filename
for that channel and version.  A release whose title matches but whose
assets lack the filename never produces the resolution. -/
theorem resolved_release_has_title_and_asset
    {pages : List (List Release)} {st : RelState}
    (h : get_latest_releases pages = some st)
    (c : Chan) {v : Str} (hv : st.get c = some v) :
    ∃ r ∈ pages.flatten, (channel_title c).isPrefixOf r.name = true
      ∧ r.tag_name = 'v' :: v
      ∧ source_file (make_name_from_channel c) v ∈ r.assets := by
  simp only [get_latest_releases, Option.bind_eq_bind, Option.bind_eq_some] at h
  obtain ⟨st1, hpp, hif⟩ := h
  split at hif
  · have hst := Option.some.inj hif
    subst hst
    rcases procPages_resolve hpp c with he | ⟨r, hr, ver, ht, hm, he⟩
    · rw [hv] at he
      have : RelState.get ⟨none, none, none, 0⟩ c = none := by cases c <;> rfl
      rw [this] at he
      cases he
    · rw [hv] at he
      have hvv := Option.some.inj he
      subst hvv
      unfold releaseMatches at hm
      rw [ht, Bool.and_eq_true] at hm
      obtain ⟨hpre, hany⟩ := hm
      obtain ⟨a, ha, hbeq⟩ := List.any_eq_true.mp hany
      exact ⟨r, hr, hpre, ht, by rw [← beq_iff_eq.mp hbeq]; exact ha⟩
  · exact absurd hif (by simp)

/-- **C6** witness: a one-page feed resolving all three channels; the
stable resolution is backed by a release with the matching title and
asset. -/
theorem resolved_release_has_title_and_asset_witness :
    ∃ r ∈ ([[⟨str "Release 1.2.3", str "v1.2.3", [str "brave-browser_1.2.3_amd64.deb"]⟩,
             ⟨str "Beta 1.4.0", str "v1.4.0", [str "brave-browser-beta_1.4.0_amd64.deb"]⟩,
             ⟨str "Nightly 1.5.0", str "v1.5.0",
               [str "brave-browser-nightly_1.5.0_amd64.deb"]⟩]] :
              List (List Release)).flatten,
      (channel_title .stable).isPrefixOf r.name = true
      ∧ r.tag_name = 'v' :: str "1.2.3"
      ∧ source_file (make_name_from_channel .stable) (str "1.2.3") ∈ r.assets :=
  @resolved_release_has_title_and_asset
    [[⟨str "Release 1.2.3", str "v1.2.3", [str "brave-browser_1.2.3_amd64.deb"]⟩,
      ⟨str "Beta 1.4.0", str "v1.4.0", [str "brave-browser-beta_1.4.0_amd64.deb"]⟩,
      ⟨str "Nightly 1.5.0", str "v1.5.0",
        [str "brave-browser-nightly_1.5.0_amd64.deb"]⟩]]
    ⟨some (str "1.2.3"), some (str "1.4.0"), some (str "1.5.0"), 3⟩
    (by decide) .stable (str "1.2.3") (by decide)

example :
    (get_latest_releases
      [[⟨str "Release 1.3.0", str "v1.3.0", []⟩,
        ⟨str "Release 1.2.0", str "v1.2.0", [str "brave-browser_1.2.0_amd64.deb"]⟩,
        ⟨str "Beta 1.4.0", str "v1.4.0", [str "brave-browser-beta_1.4.0_amd64.deb"]⟩,
        ⟨str "Nightly 1.5.0", str "v1.5.0",
          [str "brave-browser-nightly_1.5.0_amd64.deb"]⟩]]).map (·.stable)
    = some (some (str "1.2.0")) := by decide

/-- **C10** counterexample.  The claim says each channel is resolved at
most once, first-match-wins, and a resolved channel is never
overwritten.  A release with tag exactly `v` resolves the channel to the
empty version string, which Python's `if not releases[channel]` treats
as falsy, so a later matching release overwrites it: in this feed the
first stable-matching release (`Release a`, tag `v`, whose asset list
contains `brave-browser__amd64.deb`) is the first match with version
`""`, yet the scan ends with stable resolved to `2.0.0` from the second
release. -/
theorem resolved_version_overwritten :
    (get_latest_releases
        [[⟨str "Release a", str "v", [str "brave-browser__amd64.deb"]⟩,
          ⟨str "Release b", str "v2.0.0", [str "brave-browser_2.0.0_amd64.deb"]⟩,
          ⟨str "Beta c", str "v1.0.0", [str "brave-browser-beta_1.0.0_amd64.deb"]⟩,
          ⟨str "Nightly d", str "v1.0.0",
            [str "brave-browser-nightly_1.0.0_amd64.deb"]⟩]]).map (·.stable)
      = some (some (str "2.0.0"))
    ∧ FirstMatchIn
        (scannedReleases
          [[⟨str "Release a", str "v", [str "brave-browser__amd64.deb"]⟩,
            ⟨str "Release b", str "v2.0.0", [str "brave-browser_2.0.0_amd64.deb"]⟩,
            ⟨str "Beta c", str "v1.0.0", [str "brave-browser-beta_1.0.0_amd64.deb"]⟩,
            ⟨str "Nightly d", str "v1.0.0",
              [str "brave-browser-nightly_1.0.0_amd64.deb"]⟩]])
        .stable ([] : Str)
    ∧ str "2.0.0" ≠ ([] : Str) := by
  refine ⟨by decide, ?_, by decide⟩
  refine ⟨[], ⟨str "Release a", str "v", [str "brave-browser__amd64.deb"]⟩,
    [⟨str "Release b", str "v2.0.0", [str "brave-browser_2.0.0_amd64.deb"]⟩,
     ⟨str "Beta c", str "v1.0.0", [str "brave-browser-beta_1.0.0_amd64.deb"]⟩,
     ⟨str "Nightly d", str "v1.0.0", [str "brave-browser-nightly_1.0.0_amd64.deb"]⟩],
    by decide, by decide, by decide, fun r' hr' => absurd hr' (List.not_mem_nil _)⟩

theorem FirstMatchIn.append {P : List Release} {c : Chan} {v : Str} (Q : List Release)
    (h : FirstMatchIn P c v) : FirstMatchIn (P ++ Q) c v := by
  obtain ⟨l₁, r, l₂, hP, hm, ht, hno⟩ := h
  exact ⟨l₁, r, l₂ ++ Q, by rw [hP, List.append_assoc, List.cons_append], hm, ht, hno⟩

/-- The trichotomy of `procChannel_get_self`, lifted to a whole release
(the two steps for the other channels do not touch this channel). -/
theorem procRelease_get_self {st : RelState} {r : Release} {st' : RelState}
    (h : procRelease st r = some st') (c : Chan) :
    (falsyOpt (st.get c) = false ∧ st'.get c = st.get c)
    ∨ (falsyOpt (st.get c) = true ∧ releaseMatches c r = false ∧ st'.get c = st.get c)
    ∨ (falsyOpt (st.get c) = true ∧ releaseMatches c r = true
        ∧ ∃ ver, r.tag_name = 'v' :: ver ∧ st'.get c = some ver) := by
  simp only [procRelease, Option.bind_eq_bind, Option.bind_eq_some] at h
  obtain ⟨s1, h1, s2, h2, h3⟩ := h
  cases c with
  | stable =>
    have e2 := procChannel_get_other h2 (c := .stable) (by decide)
    have e3 := procChannel_get_other h3 (c := .stable) (by decide)
    rcases procChannel_get_self h1 with ⟨hf, he⟩ | ⟨hf, hm, he⟩ | ⟨hf, hm, ver, ht, he⟩
    · exact Or.inl ⟨hf, by rw [e3, e2, he]⟩
    · exact Or.inr (Or.inl ⟨hf, hm, by rw [e3, e2, he]⟩)
    · exact Or.inr (Or.inr ⟨hf, hm, ver, ht, by rw [e3, e2, he]⟩)
  | beta =>
    have e1 := procChannel_get_other h1 (c := .beta) (by decide)
    have e3 := procChannel_get_other h3 (c := .beta) (by decide)
    rcases procChannel_get_self h2 with ⟨hf, he⟩ | ⟨hf, hm, he⟩ | ⟨hf, hm, ver, ht, he⟩
    · exact Or.inl ⟨by rw [← e1]; exact hf, by rw [e3, he, e1]⟩
    · exact Or.inr (Or.inl ⟨by rw [← e1]; exact hf, hm, by rw [e3, he, e1]⟩)
    · exact Or.inr (Or.inr ⟨by rw [← e1]; exact hf, hm, ver, ht, by rw [e3, he]⟩)
  | nightly =>
    have e1 := procChannel_get_other h1 (c := .nightly) (by decide)
    have e2 := procChannel_get_other h2 (c := .nightly) (by decide)
    rcases procChannel_get_self h3 with ⟨hf, he⟩ | ⟨hf, hm, he⟩ | ⟨hf, hm, ver, ht, he⟩
    · exact Or.inl ⟨by rw [← e1, ← e2]; exact hf, by rw [he, e2, e1]⟩
    · exact Or.inr (Or.inl ⟨by rw [← e1, ← e2]; exact hf, hm, by rw [he, e2, e1]⟩)
    · exact Or.inr (Or.inr ⟨by rw [← e1, ← e2]; exact hf, hm, ver, ht, he⟩)

/-- One release preserves the first-match invariant, provided its tag is
not the bare `v` (which would resolve a channel to the falsy empty
version). -/
theorem goodScan_procRelease {P : List Release} {st : RelState} {r : Release}
    {st' : RelState} (hg : GoodScan P st) (htag : r.tag_name ≠ ['v'])
    (h : procRelease st r = some st') : GoodScan (P ++ [r]) st' := by
  intro c
  rcases procRelease_get_self h c with ⟨hf, he⟩ | ⟨hf, hm, he⟩ | ⟨hf, hm, ver, ht, he⟩
  · -- resolved already (non-falsy); untouched
    cases hsc : st.get c with
    | none => rw [hsc] at hf; cases hf
    | some v0 =>
      obtain ⟨hne, hfm⟩ := (hg c).1 v0 hsc
      constructor
      · intro v hv
        rw [he, hsc] at hv
        have hvv := Option.some.inj hv
        subst hvv
        exact ⟨hne, hfm.append [r]⟩
      · intro hnone
        rw [he, hsc] at hnone
        cases hnone
  · -- unresolved (or empty); release does not match; untouched
    have hnone : st.get c = none := by
      cases hsc : st.get c with
      | none => rfl
      | some v0 =>
        obtain ⟨hne, _⟩ := (hg c).1 v0 hsc
        rw [hsc] at hf
        exact absurd (by cases v0 with
          | nil => rfl
          | cons a l => exact absurd hf (by simp [falsyOpt])) hne
    have hnm := (hg c).2 hnone
    constructor
    · intro v hv
      rw [he, hnone] at hv
      cases hv
    · intro _
      intro r' hr'
      rcases List.mem_append.mp hr' with h1 | h1
      · exact hnm r' h1
      · rw [List.mem_singleton.mp h1]
        exact hm
  · -- unresolved; release matches; set to its version
    have hnone : st.get c = none := by
      cases hsc : st.get c with
      | none => rfl
      | some v0 =>
        obtain ⟨hne, _⟩ := (hg c).1 v0 hsc
        rw [hsc] at hf
        exact absurd (by cases v0 with
          | nil => rfl
          | cons a l => exact absurd hf (by simp [falsyOpt])) hne
    have hnm := (hg c).2 hnone
    constructor
    · intro v hv
      rw [he] at hv
      have hvv := Option.some.inj hv
      subst hvv
      refine ⟨?_, P, r, [], rfl, hm, ht, hnm⟩
      intro hvnil
      rw [hvnil] at ht
      exact htag ht
    · intro hnone'
      rw [he] at hnone'
      cases hnone'

/-- One page preserves the first-match invariant; the page is consumed
entirely unless all channels were found. -/
theorem goodScan_procPage :
    ∀ {rs P : List Release} {st st' : RelState},
      GoodScan P st → (∀ r ∈ rs, r.tag_name ≠ ['v']) →
      procPage st rs = some st' →
      ∃ rs₁ rs₂, rs = rs₁ ++ rs₂ ∧ GoodScan (P ++ rs₁) st'
        ∧ (st'.found = 3 ∨ rs₂ = []) := by
  intro rs
  induction rs with
  | nil =>
    intro P st st' hg _ h
    refine ⟨[], [], rfl, ?_, Or.inr rfl⟩
    rw [List.append_nil, ← Option.some.inj h]
    exact hg
  | cons r rest ih =>
    intro P st st' hg htag h
    unfold procPage at h
    cases h1 : procRelease st r with
    | none => rw [h1] at h; exact absurd h (by simp)
    | some s1 =>
      rw [h1] at h
      have hg1 := goodScan_procRelease hg (htag r (List.mem_cons_self _ _)) h1
      have h' : (if s1.found = 3 then some s1 else procPage s1 rest) = some st' := h
      split at h'
      next hfound =>
        have hst := Option.some.inj h'
        subst hst
        exact ⟨[r], rest, rfl, hg1, Or.inl hfound⟩
      next hfound =>
        obtain ⟨rs₁, rs₂, hsplit, hg2, hdisj⟩ :=
          ih hg1 (fun r' hr' => htag r' (List.mem_cons_of_mem _ hr')) h'
        refine ⟨r :: rs₁, rs₂, by rw [hsplit]; rfl, ?_, hdisj⟩
        rw [show P ++ r :: rs₁ = (P ++ [r]) ++ rs₁ by
          rw [List.append_assoc]; rfl]
        exact hg2

/-- The pagination loop preserves the first-match invariant over the
releases it can scan. -/
theorem goodScan_procPages :
    ∀ {pages : List (List Release)} {page : Nat} {P : List Release} {st st' : RelState},
      GoodScan P st →
      (∀ r ∈ (pages.take (MAX_PAGES - page)).flatten, r.tag_name ≠ ['v']) →
      procPages st pages page = some st' →
      ∃ Q₁ Q₂, (pages.take (MAX_PAGES - page)).flatten = Q₁ ++ Q₂
        ∧ GoodScan (P ++ Q₁) st' := by
  intro pages
  induction pages with
  | nil =>
    intro page P st st' hg _ h
    refine ⟨[], [], by simp, ?_⟩
    rw [List.append_nil, ← Option.some.inj h]
    exact hg
  | cons p rest ih =>
    intro page P st st' hg htag h
    unfold procPages at h
    split at h
    next hpage =>
      have harith : MAX_PAGES - page = (MAX_PAGES - (page + 1)) + 1 := by
        unfold MAX_PAGES at hpage ⊢
        omega
      rw [harith, List.take_succ_cons, List.flatten_cons] at htag ⊢
      cases h1 : procPage st p with
      | none => rw [h1] at h; exact absurd h (by simp)
      | some s1 =>
        rw [h1] at h
        have htagp : ∀ r ∈ p, r.tag_name ≠ ['v'] :=
          fun r hr => htag r (List.mem_append.mpr (Or.inl hr))
        obtain ⟨rs₁, rs₂, hsplit, hg1, hdisj⟩ := goodScan_procPage hg htagp h1
        have h' : (if s1.found = 3 then some s1 else procPages s1 rest (page + 1))
            = some st' := h
        split at h'
        next hfound =>
          have hst := Option.some.inj h'
          subst hst
          refine ⟨rs₁, rs₂ ++ (rest.take (MAX_PAGES - (page + 1))).flatten, ?_, hg1⟩
          rw [hsplit, List.append_assoc]
        next hfound =>
          have hrs2 : rs₂ = [] := by
            rcases hdisj with hd | hd
            · exact absurd hd hfound
            · exact hd
          rw [hrs2, List.append_nil] at hsplit
          subst hsplit
          obtain ⟨R₁, R₂, hsplit2, hg2⟩ := ih hg1
            (fun r hr => htag r (List.mem_append.mpr (Or.inr hr))) h'
          refine ⟨p ++ R₁, R₂, by rw [hsplit2, List.append_assoc], ?_⟩
          rw [← List.append_assoc]
          exact hg2
    next hpage =>
      have harith : MAX_PAGES - page = 0 := by
        unfold MAX_PAGES at hpage ⊢
        omega
      refine ⟨[], [], by rw [harith]; rfl, ?_⟩
      rw [List.append_nil, ← Option.some.inj h]
      exact hg

/-- **C10** as amended.  Provided no scanned release's tag is exactly `v`
(so every accepted version is non-empty and the falsy re-resolution of
the counterexample cannot happen), the version `get_latest_releases`
assigns to a channel is the version of the first release, in
feed/pagination order among the scannable pages, whose title matches the
channel's prefix and whose assets contain the expected distributable
filename; no release before it matches, so a resolved channel is never
overwritten. -/
theorem resolved_version_is_first_match
    {pages : List (List Release)} {st : RelState}
    (htag : ∀ r ∈ scannedReleases pages, r.tag_name ≠ ['v'])
    (h : get_latest_releases pages = some st)
    (c : Chan) {v : Str} (hv : st.get c = some v) :
    FirstMatchIn (scannedReleases pages) c v := by
  simp only [get_latest_releases, Option.bind_eq_bind, Option.bind_eq_some] at h
  obtain ⟨st1, hpp, hif⟩ := h
  split at hif
  · have hst := Option.some.inj hif
    subst hst
    have hg0 : GoodScan [] ⟨none, none, none, 0⟩ := by
      intro c
      constructor
      · intro v hv'
        cases c <;> cases hv'
      · intro _ r hr
        exact absurd hr (List.not_mem_nil _)
    have hsc : scannedReleases pages = (pages.take (MAX_PAGES - 0)).flatten := rfl
    rw [hsc] at htag
    obtain ⟨Q₁, Q₂, hsplit, hg⟩ := goodScan_procPages hg0 htag hpp
    obtain ⟨_, hfm⟩ := (hg c).1 v hv
    rw [List.nil_append] at hfm
    rw [hsc, hsplit]
    exact hfm.append Q₂
  · exact absurd hif (by simp)

/-- **C10** witness: in the three-release feed every tag is longer than
`v`, and the stable resolution `1.2.3` is the first stable match. -/
theorem resolved_version_is_first_match_witness :
    FirstMatchIn
      (scannedReleases
        [[⟨str "Release 1.2.3", str "v1.2.3", [str "brave-browser_1.2.3_amd64.deb"]⟩,
          ⟨str "Beta 1.4.0", str "v1.4.0", [str "brave-browser-beta_1.4.0_amd64.deb"]⟩,
          ⟨str "Nightly 1.5.0", str "v1.5.0",
            [str "brave-browser-nightly_1.5.0_amd64.deb"]⟩]])
      .stable (str "1.2.3") :=
  @resolved_version_is_first_match
    [[⟨str "Release 1.2.3", str "v1.2.3", [str "brave-browser_1.2.3_amd64.deb"]⟩,
      ⟨str "Beta 1.4.0", str "v1.4.0", [str "brave-browser-beta_1.4.0_amd64.deb"]⟩,
      ⟨str "Nightly 1.5.0", str "v1.5.0",
        [str "brave-browser-nightly_1.5.0_amd64.deb"]⟩]]
    ⟨some (str "1.2.3"), some (str "1.4.0"), some (str "1.5.0"), 3⟩
    (by decide) (by decide) .stable (str "1.2.3") (by decide)

/-! ## C1: reconciliation makes the manifest match the live recipes -/

theorem reSearchVersion_cons_ne {a : Char} (ha : a ≠ '-') (rest : Str) :
    reSearchVersion (a :: rest) = reSearchVersion rest := by
  cases rest with
  | nil =>
    show (if a = '-' then reSearchVersion [] else reSearchVersion []) = reSearchVersion []
    rw [if_neg ha]
  | cons d rest2 =>
    cases rest2 with
    | nil =>
      show (if a = '-' then reSearchVersion [d] else reSearchVersion [d])
        = reSearchVersion [d]
      rw [if_neg ha]
    | cons e tail =>
      show (if a = '-'
            then (if d.isDigit && versionClassChar e
                  then some ('-' :: d :: e :: tail.takeWhile versionClassChar)
                  else reSearchVersion (d :: e :: tail))
            else reSearchVersion (d :: e :: tail)) = reSearchVersion (d :: e :: tail)
      rw [if_neg ha]

theorem reSearchVersion_chars :
    ∀ {l m : Str}, reSearchVersion l = some m →
      ∀ c ∈ m.drop 1, versionClassChar c = true := by
  intro l
  induction l with
  | nil => intro m h; cases h
  | cons a rest ih =>
    intro m h c hc
    by_cases ha : a = '-'
    · subst ha
      cases rest with
      | nil =>
        have h' : (none : Option Str) = some m := h
        cases h'
      | cons d rest2 =>
        cases rest2 with
        | nil =>
          have h' : reSearchVersion [d] = some m := h
          exact ih h' c hc
        | cons e tail =>
          have hbody : reSearchVersion ('-' :: d :: e :: tail)
              = (if (d.isDigit && versionClassChar e) = true
                 then some ('-' :: d :: e :: tail.takeWhile versionClassChar)
                 else reSearchVersion (d :: e :: tail)) := rfl
          rw [hbody] at h
          by_cases hde : (d.isDigit && versionClassChar e) = true
          · rw [if_pos hde] at h
            have hm := Option.some.inj h
            subst hm
            simp only [List.drop_one, List.tail_cons] at hc
            rcases List.mem_cons.mp hc with rfl | hc'
            · simp [versionClassChar, ((Bool.and_eq_true _ _).mp hde).1]
            · rcases List.mem_cons.mp hc' with rfl | hc''
              · exact ((Bool.and_eq_true _ _).mp hde).2
              · exact List.mem_takeWhile_imp hc''
          · rw [if_neg hde] at h
            exact ih h c hc
    · rw [reSearchVersion_cons_ne ha] at h
      exact ih h c hc

theorem extract_version_chars {p v : Str} (h : extract_version p = some v) :
    ∀ c ∈ v, versionClassChar c = true := by
  have h' : (if endsWithL (basename p) (str ".ebuild") = true then
      match reSearchVersion ((basename p).take ((basename p).length - 7)) with
      | some m => some (m.drop 1)
      | none => none
    else none) = some v := h
  by_cases he : endsWithL (basename p) (str ".ebuild") = true
  · rw [if_pos he] at h'
    cases hm : reSearchVersion ((basename p).take ((basename p).length - 7)) with
    | none => rw [hm] at h'; cases h'
    | some m =>
      rw [hm] at h'
      have hv : some (m.drop 1) = some v := h'
      have hv' := Option.some.inj hv
      subst hv'
      exact reSearchVersion_chars hm
  · rw [if_neg he] at h'
    cases h'

theorem versionClassChar_not_special {c : Char} (h : versionClassChar c = true) :
    c ≠ ' ' ∧ c ≠ '\n' := by
  constructor <;> rintro rfl <;> simp [versionClassChar] at h

theorem decode_source_file (name v : Str) :
    decode_dist_file name (source_file name v) = some v := by
  unfold decode_dist_file source_file
  have hpre : (name ++ str "_").isPrefixOf
      (name ++ str "_" ++ v ++ str "_amd64.deb") = true := by
    rw [List.isPrefixOf_iff_prefix, List.append_assoc, List.append_assoc]
    exact ⟨v ++ str "_amd64.deb", by rw [List.append_assoc]⟩
  have hdrop : (name ++ str "_" ++ v ++ str "_amd64.deb").drop (name.length + 1)
      = v ++ str "_amd64.deb" := by
    rw [List.append_assoc, List.append_assoc]
    have hlen : name.length + 1 = (name ++ str "_").length := by
      simp [str]
    rw [hlen, ← List.append_assoc (name) (str "_"), List.drop_left]
  have hsuf : endsWithL ((name ++ str "_" ++ v ++ str "_amd64.deb").drop
      (name.length + 1)) (str "_amd64.deb") = true := by
    rw [hdrop]
    unfold endsWithL
    rw [List.isSuffixOf_iff_suffix]
    exact List.suffix_append v (str "_amd64.deb")
  have hlen2 : (name ++ str "_" ++ v ++ str "_amd64.deb").length
      = name.length + 1 + v.length + 10 := by
    simp [str]
    omega
  rw [hpre, hsuf]
  simp only [Bool.true_and, Bool.and_true]
  rw [if_pos (by rw [hlen2]; exact decide_eq_true (by omega))]
  rw [hdrop, hlen2]
  have : name.length + 1 + v.length + 10 - (name.length + 1) - 10 = v.length := by
    omega
  rw [this, List.take_left]

theorem splitOnChar_append_first {sep : Char} :
    ∀ {a : Str}, (∀ c ∈ a, c ≠ sep) → ∀ rest : Str,
      splitOnChar sep (a ++ sep :: rest) = a :: splitOnChar sep rest := by
  intro a
  induction a with
  | nil =>
    intro _ rest
    show splitOnChar sep (sep :: rest) = [] :: splitOnChar sep rest
    have hbody : splitOnChar sep (sep :: rest)
        = (if sep = sep then [] :: splitOnChar sep rest
           else match splitOnChar sep rest with
                | [] => [[sep]]
                | h :: t => (sep :: h) :: t) := rfl
    rw [hbody, if_pos rfl]
  | cons x xs ih =>
    intro h rest
    have hx : x ≠ sep := h x (List.mem_cons_self _ _)
    have hxs := ih (fun c hc => h c (List.mem_cons_of_mem _ hc)) rest
    show splitOnChar sep (x :: (xs ++ sep :: rest)) = (x :: xs) :: splitOnChar sep rest
    have hbody : splitOnChar sep (x :: (xs ++ sep :: rest))
        = (if x = sep then [] :: splitOnChar sep (xs ++ sep :: rest)
           else match splitOnChar sep (xs ++ sep :: rest) with
                | [] => [[x]]
                | h :: t => (x :: h) :: t) := rfl
    rw [hbody, if_neg hx, hxs]

theorem splitKeepNl_append_line :
    ∀ {body : Str}, '\n' ∉ body → ∀ (rest : Str) (acc : Str),
      splitKeepNl (body ++ '\n' :: rest) acc
        = (acc.reverse ++ body ++ ['\n']) :: splitKeepNl rest [] := by
  intro body
  induction body with
  | nil =>
    intro _ rest acc
    show splitKeepNl ('\n' :: rest) acc
      = (acc.reverse ++ [] ++ ['\n']) :: splitKeepNl rest []
    have hbody : splitKeepNl ('\n' :: rest) acc
        = (if ('\n' : Char) = '\n' then (acc.reverse ++ ['\n']) :: splitKeepNl rest []
           else splitKeepNl rest ('\n' :: acc)) := rfl
    rw [hbody, if_pos rfl, List.append_nil]
  | cons x xs ih =>
    intro h rest acc
    have hx : x ≠ '\n' := fun e => h (e ▸ List.mem_cons_self _ _)
    show splitKeepNl (x :: (xs ++ '\n' :: rest)) acc
      = (acc.reverse ++ (x :: xs) ++ ['\n']) :: splitKeepNl rest []
    have hbody : splitKeepNl (x :: (xs ++ '\n' :: rest)) acc
        = (if x = '\n'
           then (acc.reverse ++ ['\n']) :: splitKeepNl (xs ++ '\n' :: rest) []
           else splitKeepNl (xs ++ '\n' :: rest) (x :: acc)) := rfl
    rw [hbody, if_neg hx, ih (fun hc => h (List.mem_cons_of_mem _ hc)) rest (x :: acc)]
    simp

theorem manifestLines_joinAll {lines : List Str} (h : ∀ l ∈ lines, NlTerm l) :
    manifestLines (joinAll lines) = lines := by
  induction lines with
  | nil => rfl
  | cons l rest ih =>
    obtain ⟨body, hb, hnb⟩ := h l (List.mem_cons_self _ _)
    have hrest := ih (fun l' hl' => h l' (List.mem_cons_of_mem _ hl'))
    unfold joinAll at hrest ⊢
    unfold manifestLines at hrest ⊢
    rw [List.foldr_cons, hb, List.append_assoc, List.cons_append, List.nil_append,
      splitKeepNl_append_line hnb _ []]
    rw [List.reverse_nil, List.nil_append]
    exact congrArg (_ :: ·) hrest

theorem splitKeepNl_nlterm :
    ∀ {s : Str} {acc : Str}, '\n' ∉ acc → s.getLast? = some '\n' →
      ∀ l ∈ splitKeepNl s acc, NlTerm l := by
  intro s
  induction s with
  | nil => intro acc _ hlast; cases hlast
  | cons c rest ih =>
    intro acc hacc hlast l hl
    by_cases hc : c = '\n'
    · subst hc
      have hbody : splitKeepNl ('\n' :: rest) acc
          = (acc.reverse ++ ['\n']) :: splitKeepNl rest [] := by
        show (if ('\n' : Char) = '\n'
              then (acc.reverse ++ ['\n']) :: splitKeepNl rest []
              else splitKeepNl rest ('\n' :: acc)) = _
        rw [if_pos rfl]
      rw [hbody] at hl
      rcases List.mem_cons.mp hl with rfl | hl'
      · exact ⟨acc.reverse, rfl, fun hm => hacc (List.mem_reverse.mp hm)⟩
      · cases rest with
        | nil =>
          have hnil : splitKeepNl ([] : Str) [] = [] := rfl
          rw [hnil] at hl'
          cases hl'
        | cons r0 rtail =>
          have hlast2 : (r0 :: rtail).getLast? = some '\n' := by
            rwa [List.getLast?_cons_cons] at hlast
          exact ih (by simp) hlast2 l hl'
    · have hbody : splitKeepNl (c :: rest) acc = splitKeepNl rest (c :: acc) := by
        show (if c = '\n' then (acc.reverse ++ ['\n']) :: splitKeepNl rest []
              else splitKeepNl rest (c :: acc)) = _
        rw [if_neg hc]
      rw [hbody] at hl
      cases rest with
      | nil =>
        exfalso
        rw [List.getLast?_singleton] at hlast
        exact hc (Option.some.inj hlast)
      | cons r0 rtail =>
        have hlast2 : (r0 :: rtail).getLast? = some '\n' := by
          rwa [List.getLast?_cons_cons] at hlast
        refine ih ?_ hlast2 l hl
        intro hm
        rcases List.mem_cons.mp hm with rfl | hm'
        · exact hc rfl
        · exact hacc hm'

theorem manifestLines_nlterm {content : Str}
    (hend : content = [] ∨ content.getLast? = some '\n') :
    ∀ l ∈ manifestLines content, NlTerm l := by
  rcases hend with rfl | hend
  · intro l hl; cases hl
  · exact splitKeepNl_nlterm (by simp) hend

theorem natCharsAux_chars :
    ∀ (fuel n : Nat), ∀ c ∈ natCharsAux fuel n, ∃ d, c = Nat.digitChar d := by
  intro fuel
  induction fuel with
  | zero => intro n c hc; cases hc
  | succ f ih =>
    intro n c hc
    unfold natCharsAux at hc
    split at hc
    · exact ⟨n, List.mem_singleton.mp hc⟩
    · rcases List.mem_append.mp hc with h1 | h1
      · exact ih _ c h1
      · exact ⟨n % 10, List.mem_singleton.mp h1⟩

theorem digitChar_not_special (d : Nat) :
    Nat.digitChar d ≠ '\n' ∧ Nat.digitChar d ≠ ' ' := by
  rcases Nat.lt_or_ge d 16 with h | h
  · interval_cases d <;> exact ⟨by decide, by decide⟩
  · have hstar : Nat.digitChar d = '*' := by
      unfold Nat.digitChar
      repeat rw [if_neg (by omega)]
    rw [hstar]
    exact ⟨by decide, by decide⟩

theorem natChars_chars (n : Nat) : ∀ c ∈ natChars n, c ≠ '\n' ∧ c ≠ ' ' := by
  intro c hc
  obtain ⟨d, rfl⟩ := natCharsAux_chars _ _ c hc
  exact digitChar_not_special d

theorem extract_version_not_special {p v : Str} (h : extract_version p = some v) :
    ∀ c ∈ v, c ≠ ' ' ∧ c ≠ '\n' :=
  fun c hc => versionClassChar_not_special (extract_version_chars h c hc)

theorem source_file_chars {name v : Str}
    (hname : ∀ c ∈ name, c ≠ ' ' ∧ c ≠ '\n')
    (hv : ∀ c ∈ v, c ≠ ' ' ∧ c ≠ '\n') :
    ∀ c ∈ source_file name v, c ≠ ' ' ∧ c ≠ '\n' := by
  intro c hc
  unfold source_file at hc
  simp only [List.append_assoc, List.mem_append] at hc
  rcases hc with h | h | h | h
  · exact hname c h
  · exact (by decide : ∀ c ∈ str "_", c ≠ ' ' ∧ c ≠ '\n') c h
  · exact hv c h
  · exact (by decide : ∀ c ∈ str "_amd64.deb", c ≠ ' ' ∧ c ≠ '\n') c h

theorem dist_line_assoc (name v : Str) (fr : FetchResult) :
    dist_line name v fr
      = str "DIST" ++ ' ' :: (source_file name v
          ++ ' ' :: (natChars fr.size ++ str " BLAKE2B " ++ fr.blake2b
              ++ str " SHA512 " ++ fr.sha512 ++ str "\n")) := by
  simp only [dist_line, List.append_assoc]
  rfl

theorem dist_line_parts {name v : Str} (fr : FetchResult)
    (hname : ∀ c ∈ name, c ≠ ' ' ∧ c ≠ '\n')
    (hv : ∀ c ∈ v, c ≠ ' ' ∧ c ≠ '\n') :
    splitOnChar ' ' (dist_line name v fr)
      = str "DIST" :: source_file name v
          :: splitOnChar ' ' (natChars fr.size ++ str " BLAKE2B " ++ fr.blake2b
              ++ str " SHA512 " ++ fr.sha512 ++ str "\n") := by
  rw [dist_line_assoc,
    splitOnChar_append_first
      (fun c hc => ((by decide : ∀ c ∈ str "DIST", c ≠ ' ' ∧ c ≠ '\n') c hc).1) _,
    splitOnChar_append_first (fun c hc => (source_file_chars hname hv c hc).1) _]

theorem dist_entry_version_dist_line {name v : Str} (fr : FetchResult)
    (hname : ∀ c ∈ name, c ≠ ' ' ∧ c ≠ '\n')
    (hv : ∀ c ∈ v, c ≠ ' ' ∧ c ≠ '\n') :
    dist_entry_version name (dist_line name v fr) = some v := by
  unfold dist_entry_version
  rw [dist_line_parts fr hname hv]
  show (if str "DIST" = str "DIST"
        then decode_dist_file name (source_file name v) else none) = some v
  rw [if_pos rfl, decode_source_file]

theorem dist_entry_file_dist_line {name v : Str} (fr : FetchResult)
    (hname : ∀ c ∈ name, c ≠ ' ' ∧ c ≠ '\n')
    (hv : ∀ c ∈ v, c ≠ ' ' ∧ c ≠ '\n') :
    dist_entry_file (dist_line name v fr) = some (source_file name v) := by
  unfold dist_entry_file
  rw [dist_line_parts fr hname hv]
  show (if str "DIST" = str "DIST" then some (source_file name v) else none)
    = some (source_file name v)
  rw [if_pos rfl]

theorem dist_line_nlterm {name v : Str} {fr : FetchResult}
    (hname : ∀ c ∈ name, c ≠ ' ' ∧ c ≠ '\n')
    (hv : ∀ c ∈ v, c ≠ ' ' ∧ c ≠ '\n')
    (hb2 : ∀ c ∈ fr.blake2b, c ≠ '\n')
    (hs5 : ∀ c ∈ fr.sha512, c ≠ '\n') :
    NlTerm (dist_line name v fr) := by
  refine ⟨str "DIST " ++ source_file name v ++ str " " ++ natChars fr.size
      ++ str " BLAKE2B " ++ fr.blake2b ++ str " SHA512 " ++ fr.sha512, rfl, ?_⟩
  intro hm
  simp only [List.append_assoc, List.mem_append] at hm
  rcases hm with h | h | h | h | h | h | h | h
  · exact (by decide : ('\n' : Char) ∉ str "DIST ") h
  · exact (source_file_chars hname hv '\n' h).2 rfl
  · exact (by decide : ('\n' : Char) ∉ str " ") h
  · exact (natChars_chars _ '\n' h).1 rfl
  · exact (by decide : ('\n' : Char) ∉ str " BLAKE2B ") h
  · exact hb2 '\n' h rfl
  · exact (by decide : ('\n' : Char) ∉ str " SHA512 ") h
  · exact hs5 '\n' h rfl

/-- What one iteration of the manifest read loop does: keep a `DIST` line
of a live distfile (recording its version), drop any other `DIST` line,
keep any non-`DIST` line. -/
theorem manifestKeepLine_spec {name : Str} {versions : List Str}
    {acc acc' : List Str × List Str} {line : Str}
    (h : manifestKeepLine name versions acc line = some acc') :
    (∃ v, v ∈ versions ∧ acc'.1 = acc.1 ++ [line] ∧ acc'.2 = acc.2 ++ [v]
       ∧ dist_entry_version name line = some v
       ∧ dist_entry_file line = some (source_file name v))
    ∨ acc' = acc
    ∨ (acc'.1 = acc.1 ++ [line] ∧ acc'.2 = acc.2
       ∧ dist_entry_version name line = none ∧ dist_entry_file line = none) := by
  unfold manifestKeepLine at h
  split at h
  · cases h
  rename_i p0 restP hparts
  split at h
  case isTrue hp0 =>
    split at h
    · cases h
    rename_i p1 tail
    split at h
    case _ v hfind =>
      have hax := (Option.some.inj h).symm
      have hp := List.find?_some hfind
      have hp1 : source_file name v = p1 := beq_iff_eq.mp hp
      refine Or.inl ⟨v, List.mem_of_find?_eq_some hfind, by rw [hax], by rw [hax],
        ?_, ?_⟩
      · unfold dist_entry_version
        rw [hparts, hp0]
        show (if str "DIST" = str "DIST"
              then decode_dist_file name p1 else none) = some v
        rw [if_pos rfl, ← hp1, decode_source_file]
      · unfold dist_entry_file
        rw [hparts, hp0]
        show (if str "DIST" = str "DIST" then some p1 else none)
          = some (source_file name v)
        rw [if_pos rfl, hp1]
    case _ hfind =>
      exact Or.inr (Or.inl (Option.some.inj h).symm)
  case isFalse hp0 =>
    have hax := (Option.some.inj h).symm
    refine Or.inr (Or.inr ⟨by rw [hax], by rw [hax], ?_, ?_⟩)
    · unfold dist_entry_version
      rw [hparts]
      cases restP with
      | nil => rfl
      | cons p1 tail =>
        show (if p0 = str "DIST" then decode_dist_file name p1 else none) = none
        rw [if_neg hp0]
    · unfold dist_entry_file
      rw [hparts]
      cases restP with
      | nil => rfl
      | cons p1 tail =>
        show (if p0 = str "DIST" then some p1 else none) = none
        rw [if_neg hp0]

/-- The manifest read loop, relative to the starting accumulator: the kept
lines are a sublist of the input lines, their recorded versions are live,
and the two `filterMap` projections of the kept lines recover exactly the
recorded versions and their distfile names. -/
theorem manifestKeepGo_spec {name : Str} {versions : List Str} :
    ∀ {lines : List Str} {k0 m0 K M : List Str},
      manifestKeepGo name versions lines (k0, m0) = some (K, M) →
      ∃ kA mA, K = k0 ++ kA ∧ M = m0 ++ mA ∧
        kA.Sublist lines ∧ (∀ v ∈ mA, v ∈ versions) ∧
        kA.filterMap (dist_entry_version name) = mA ∧
        kA.filterMap dist_entry_file = mA.map (source_file name) := by
  intro lines
  induction lines with
  | nil =>
    intro k0 m0 K M h
    have h' : some ((k0, m0)) = some ((K, M)) := h
    have h'' := Option.some.inj h'
    injection h'' with h1 h2
    subst h1
    subst h2
    exact ⟨[], [], (List.append_nil _).symm, (List.append_nil _).symm,
      List.nil_sublist _, by simp, rfl, rfl⟩
  | cons line rest ih =>
    intro k0 m0 K M h
    unfold manifestKeepGo at h
    cases hline : manifestKeepLine name versions (k0, m0) line with
    | none => rw [hline] at h; cases h
    | some acc1 =>
      rw [hline] at h
      have h' : manifestKeepGo name versions rest acc1 = some (K, M) := h
      obtain ⟨a1, a2⟩ := acc1
      obtain ⟨kA', mA', hK, hM, hsub, hmem, hfm1, hfm2⟩ := ih h'
      rcases manifestKeepLine_spec hline with
        ⟨v, hvmem, e1, e2, hdv, hdf⟩ | heq | ⟨e1, e2, hdv, hdf⟩
      · simp only at e1 e2
        refine ⟨line :: kA', v :: mA', ?_, ?_, hsub.cons₂ line, ?_, ?_, ?_⟩
        · rw [hK, e1, List.append_assoc]
          rfl
        · rw [hM, e2, List.append_assoc]
          rfl
        · intro v' hv'
          rcases List.mem_cons.mp hv' with rfl | hv''
          · exact hvmem
          · exact hmem v' hv''
        · rw [List.filterMap_cons, hdv, hfm1]
        · rw [List.filterMap_cons, hdf, hfm2, List.map_cons]
      · injection heq with e1 e2
        subst e1
        subst e2
        exact ⟨kA', mA', hK, hM, hsub.cons line, hmem, hfm1, hfm2⟩
      · simp only at e1 e2
        refine ⟨line :: kA', mA', ?_, ?_, hsub.cons₂ line, hmem, ?_, ?_⟩
        · rw [hK, e1, List.append_assoc]
          rfl
        · rw [hM, e2]
        · rw [List.filterMap_cons, hdv, hfm1]
        · rw [List.filterMap_cons, hdf, hfm2]

theorem lookupFile_cons (x : Str × Str) (d : Dir) (f : Str) :
    lookupFile (x :: d) f
      = if (x.1 == f) = true then some x.2 else lookupFile d f := by
  cases hx : (x.1 == f) <;> simp [lookupFile, List.find?_cons, hx]

theorem lookupFile_map_set {f c : Str} :
    ∀ d : Dir, d.any (fun kv => kv.1 == f) = true →
      lookupFile (d.map (fun kv => if kv.1 == f then (f, c) else kv)) f = some c := by
  intro d
  induction d with
  | nil => intro h; simp at h
  | cons kv rest ih =>
    intro h
    rw [List.map_cons]
    by_cases hk : (kv.1 == f) = true
    · rw [if_pos hk, lookupFile_cons]
      rw [if_pos (by simp)]
    · rw [if_neg hk, lookupFile_cons, if_neg hk]
      apply ih
      have hk' : (kv.1 == f) = false := by simpa using hk
      rw [List.any_cons, hk', Bool.false_or] at h
      exact h

theorem lookupFile_append_absent {f c : Str} :
    ∀ d : Dir, (∀ kv ∈ d, (kv.1 == f) = false) →
      lookupFile (d ++ [(f, c)]) f = some c := by
  intro d
  induction d with
  | nil =>
    intro _
    rw [List.nil_append, lookupFile_cons, if_pos (by simp)]
  | cons kv rest ih =>
    intro h
    rw [List.cons_append, lookupFile_cons,
      if_neg (by rw [h kv (List.mem_cons_self _ _)]; exact Bool.false_ne_true)]
    exact ih (fun kv' h' => h kv' (List.mem_cons_of_mem _ h'))

theorem lookupFile_setFile_self (d : Dir) (f c : Str) :
    lookupFile (setFile d f c) f = some c := by
  unfold setFile
  by_cases h : d.any (fun kv => kv.1 == f) = true
  · rw [if_pos h]
    exact lookupFile_map_set d h
  · rw [if_neg h]
    apply lookupFile_append_absent
    intro kv hkv
    cases hk : (kv.1 == f) with
    | false => rfl
    | true => exact absurd (List.any_eq_true.mpr ⟨kv, hkv, hk⟩) h

/-- The freshly appended `DIST` lines decode back to exactly the versions
of the enumerated set difference, and each is a well-formed
newline-terminated line. -/
theorem added_lines_spec {name : Str} {fetch : Fetch}
    (hname : ∀ c ∈ name, c ≠ ' ' ∧ c ≠ '\n')
    (hfetch : ∀ u fr, fetch u = some fr →
      (∀ c ∈ fr.blake2b, c ≠ '\n') ∧ (∀ c ∈ fr.sha512, c ≠ '\n')) :
    ∀ {enum added : List Str},
      (∀ v ∈ enum, ∀ c ∈ v, c ≠ ' ' ∧ c ≠ '\n') →
      mapO (fun v => (fetch (source_url name v)).map (dist_line name v)) enum
        = some added →
      added.filterMap (dist_entry_version name) = enum
        ∧ (∀ l ∈ added, NlTerm l) := by
  intro enum
  induction enum with
  | nil =>
    intro added _ h
    have h' : some ([] : List Str) = some added := h
    rw [← Option.some.inj h']
    exact ⟨rfl, fun l hl => absurd hl (List.not_mem_nil _)⟩
  | cons v vs ih =>
    intro added hchars h
    unfold mapO at h
    cases hf : fetch (source_url name v) with
    | none => rw [hf] at h; exact absurd h (by simp)
    | some fr =>
      rw [hf] at h
      cases hrest : mapO (fun v => (fetch (source_url name v)).map (dist_line name v)) vs with
      | none => rw [hrest] at h; exact absurd h (by simp)
      | some added' =>
        rw [hrest] at h
        have h' : some (dist_line name v fr :: added') = some added := h
        rw [← Option.some.inj h']
        have hvchars := hchars v (List.mem_cons_self _ _)
        obtain ⟨e1, e2⟩ := ih (fun v' hv' => hchars v' (List.mem_cons_of_mem _ hv')) hrest
        constructor
        · rw [List.filterMap_cons, dist_entry_version_dist_line fr hname hvchars, e1]
        · intro l hl
          rcases List.mem_cons.mp hl with rfl | hl'
          · exact dist_line_nlterm hname hvchars (hfetch _ _ hf).1 (hfetch _ _ hf).2
          · exact e2 l hl'

/-- **C1** counterexample.  The claim demands, for arbitrary starting
manifests including ones with duplicate entries, that the reconciled
manifest contain exactly one `DIST` entry per distinct version.  When the
starting manifest holds two `DIST` lines for the same live distfile, the
read loop keeps both (each passes the filename test), and no code ever
deduplicates them: the output manifest decodes to the version list
`["1.0.0", "1.0.0"]` — two entries for one version.  (The set-equality
half of the claim still holds here.) -/
theorem reconcile_keeps_duplicate_entries :
    ((update_manifest (str "brave-browser") (fun _ => none) pickDedup
        [(str "brave-browser-1.0.0.ebuild", str "C"),
         (str "Manifest",
          str "DIST brave-browser_1.0.0_amd64.deb 1 BLAKE2B aa SHA512 bb\nDIST brave-browser_1.0.0_amd64.deb 2 BLAKE2B cc SHA512 dd\n")]).bind
      (fun d => (lookupFile d (str "Manifest")).map
        (manifest_versions (str "brave-browser"))))
      = some [str "1.0.0", str "1.0.0"]
    ∧ ValidPick pickDedup :=
  ⟨by decide, validPick_pickDedup⟩

/-- **C1** as amended.  Provided the starting manifest is empty or
newline-terminated and holds at most one `DIST` line per distfile name,
a successful `update_manifest` produces a manifest whose decoded `DIST`
versions are exactly the set of live recipe versions, with exactly one
`DIST` entry per version.  Both provisos are needed: a manifest whose
last line lacks a newline gets the first appended `DIST` line glued onto
it by `writelines`, hiding that entry from decoding (so even set
equality fails without newline termination), and a duplicated `DIST`
line survives reconciliation twice (so uniqueness fails without the
duplicate-free proviso). -/
theorem reconcile_manifest_matches_recipes
    {name : Str} {fetch : Fetch} {pick : Pick} {dir dir' : Dir}
    {versions : List Str} {content : Str}
    (hpick : ValidPick pick)
    (hname : ∀ c ∈ name, c ≠ ' ' ∧ c ≠ '\n')
    (hfetch : ∀ u fr, fetch u = some fr →
      (∀ c ∈ fr.blake2b, c ≠ '\n') ∧ (∀ c ∈ fr.sha512, c ≠ '\n'))
    (hv : mapO extract_version (globEbuilds dir) = some versions)
    (hman : lookupFile dir (str "Manifest") = some content)
    (hend : content = [] ∨ content.getLast? = some '\n')
    (hdup : ((manifestLines content).filterMap dist_entry_file).Nodup)
    (h : update_manifest name fetch pick dir = some dir') :
    ∃ content', lookupFile dir' (str "Manifest") = some content'
      ∧ (∀ v, v ∈ manifest_versions name content' ↔ v ∈ versions)
      ∧ (manifest_versions name content').Nodup := by
  simp only [update_manifest, Option.pure_def, Option.bind_eq_bind, Option.bind_eq_some,
    Option.some.injEq] at h
  obtain ⟨versions1, hv1, content1, hc1, ⟨kept, inman⟩, hk, added, ha, hset⟩ := h
  rw [hv] at hv1
  have hveq := Option.some.inj hv1
  subst hveq
  rw [hman] at hc1
  have hceq := Option.some.inj hc1
  subst hceq
  have hvchars : ∀ v ∈ versions, ∀ c ∈ v, c ≠ ' ' ∧ c ≠ '\n' := by
    intro v hvm
    obtain ⟨f, _, hf⟩ := mem_of_mapO_some hv hvm
    exact extract_version_not_special hf
  obtain ⟨kA, mA, hK, hM, hsub, hmamem, hfm1, hfm2⟩ := manifestKeepGo_spec hk
  rw [List.nil_append] at hK hM
  subst hK
  subst hM
  obtain ⟨henodup, hemem⟩ := hpick versions inman
  have hechars : ∀ v ∈ pick versions inman, ∀ c ∈ v, c ≠ ' ' ∧ c ≠ '\n' :=
    fun v hv' => hvchars v ((hemem v).mp hv').1
  obtain ⟨hfmadded, hnladded⟩ := added_lines_spec hname hfetch hechars ha
  have hlines : manifestLines (joinAll (kept ++ added)) = kept ++ added := by
    apply manifestLines_joinAll
    intro l hl
    rcases List.mem_append.mp hl with h1 | h1
    · exact manifestLines_nlterm hend l (hsub.subset h1)
    · exact hnladded l h1
  have hdec : manifest_versions name (joinAll (kept ++ added))
      = inman ++ pick versions inman := by
    unfold manifest_versions
    rw [hlines, List.filterMap_append, hfm1, hfmadded]
  refine ⟨joinAll (kept ++ added), ?_, ?_, ?_⟩
  · rw [← hset]
    exact lookupFile_setFile_self dir _ _
  · intro v
    rw [hdec, List.mem_append]
    constructor
    · rintro (h1 | h1)
      · exact hmamem v h1
      · exact ((hemem v).mp h1).1
    · intro h1
      by_cases h2 : v ∈ inman
      · exact Or.inl h2
      · exact Or.inr ((hemem v).mpr ⟨h1, h2⟩)
  · rw [hdec]
    apply List.Nodup.append
    · have hsubfm := hsub.filterMap dist_entry_file
      have hmap : (inman.map (source_file name)).Nodup := by
        rw [← hfm2]
        exact hdup.sublist hsubfm
      exact hmap.of_map
    · exact henodup
    · intro v h1 h2
      exact ((hemem v).mp h2).2 h1

/-- **C1** witness: a directory with recipes `1.0.0` and `2.0.0` whose
manifest already records `1.0.0`; reconciliation succeeds, and the
resulting manifest's decoded versions are exactly `{1.0.0, 2.0.0}`, one
entry each. -/
theorem reconcile_manifest_matches_recipes_witness :
    ∃ content', lookupFile
        (setFile
          [(str "brave-browser-1.0.0.ebuild", str "C"),
           (str "brave-browser-2.0.0.ebuild", str "D"),
           (str "Manifest",
            str "DIST brave-browser_1.0.0_amd64.deb 1 BLAKE2B aa SHA512 bb\n")]
          (str "Manifest")
          (joinAll
            [str "DIST brave-browser_1.0.0_amd64.deb 1 BLAKE2B aa SHA512 bb\n",
             dist_line (str "brave-browser") (str "2.0.0") ⟨7, str "cc", str "dd"⟩]))
        (str "Manifest") = some content'
      ∧ (∀ v, v ∈ manifest_versions (str "brave-browser") content'
            ↔ v ∈ [str "1.0.0", str "2.0.0"])
      ∧ (manifest_versions (str "brave-browser") content').Nodup :=
  @reconcile_manifest_matches_recipes (str "brave-browser")
    (fun _ => some ⟨7, str "cc", str "dd"⟩) pickDedup
    [(str "brave-browser-1.0.0.ebuild", str "C"),
     (str "brave-browser-2.0.0.ebuild", str "D"),
     (str "Manifest",
      str "DIST brave-browser_1.0.0_amd64.deb 1 BLAKE2B aa SHA512 bb\n")]
    (setFile
      [(str "brave-browser-1.0.0.ebuild", str "C"),
       (str "brave-browser-2.0.0.ebuild", str "D"),
       (str "Manifest",
        str "DIST brave-browser_1.0.0_amd64.deb 1 BLAKE2B aa SHA512 bb\n")]
      (str "Manifest")
      (joinAll
        [str "DIST brave-browser_1.0.0_amd64.deb 1 BLAKE2B aa SHA512 bb\n",
         dist_line (str "brave-browser") (str "2.0.0") ⟨7, str "cc", str "dd"⟩]))
    [str "1.0.0", str "2.0.0"]
    (str "DIST brave-browser_1.0.0_amd64.deb 1 BLAKE2B aa SHA512 bb\n")
    validPick_pickDedup (by decide)
    (fun u fr hfr => by
      rw [← Option.some.inj hfr]
      exact ⟨by decide, by decide⟩)
    (by decide) (by decide) (Or.inr (by decide)) (by decide) (by decide)

/-- **C9.**  The claim says two reconciliation runs on the same directory,
starting manifest and distfile contents produce byte-identical manifests.
The code appends the new `DIST` lines while iterating the Python set
`versions - versions_in_manifest`, whose iteration order depends on the
per-process string hash seed.  Both `pickDedup` and `pickRev` enumerate
that set difference faithfully (see `validPick_pickDedup`,
`validPick_pickRev`), yet on a directory with recipes `1.0.0` and
`2.0.0` and an empty manifest the two runs write manifests that differ
as byte strings (the two `DIST` lines appear in opposite orders). -/
theorem update_manifest_output_order_not_determined :
    ((update_manifest (str "brave-browser") (fun _ => some ⟨7, str "aa", str "bb"⟩)
        pickDedup
        [(str "brave-browser-1.0.0.ebuild", str "C"),
         (str "brave-browser-2.0.0.ebuild", str "D"),
         (str "Manifest", str "")]).bind
      (fun d => lookupFile d (str "Manifest")))
    ≠ ((update_manifest (str "brave-browser") (fun _ => some ⟨7, str "aa", str "bb"⟩)
        pickRev
        [(str "brave-browser-1.0.0.ebuild", str "C"),
         (str "brave-browser-2.0.0.ebuild", str "D"),
         (str "Manifest", str "")]).bind
      (fun d => lookupFile d (str "Manifest")))
    ∧ ValidPick pickDedup ∧ ValidPick pickRev :=
  ⟨by decide, validPick_pickDedup, validPick_pickRev⟩

/-! ## C8: idempotence of `update_ebuilds` -/

theorem isPrefixOf_append_self : ∀ (l t : List Char), l.isPrefixOf (l ++ t) = true := by
  intro l
  induction l with
  | nil => intro t; cases t <;> rfl
  | cons a as ih =>
    intro t
    show (a == a && as.isPrefixOf (as ++ t)) = true
    rw [ih t, beq_self_eq_true]
    rfl

theorem endsWithL_append (a s : Str) : endsWithL (a ++ s) s = true := by
  show (s.reverse.isPrefixOf (a ++ s).reverse) = true
  rw [List.reverse_append]
  exact isPrefixOf_append_self s.reverse a.reverse

theorem isEbuildName_of_head {f : Str} {ch : Char} (hhead : f.head? = some ch)
    (hch : ch ≠ '.') (hsuf : endsWithL f (str ".ebuild") = true) :
    isEbuildName f = true := by
  cases f with
  | nil => exact Option.noConfusion hhead
  | cons a t =>
    have ha : a = ch := Option.some.inj (hhead : some a = some ch)
    subst ha
    show (decide (a ≠ '.') && endsWithL (a :: t) (str ".ebuild")) = true
    rw [hsuf, decide_eq_true hch]
    rfl

theorem isEbuildName_ebuild_file (c : Chan) (v : Str) :
    isEbuildName (ebuild_file (make_name_from_channel c) v) = true := by
  have hhead : (ebuild_file (make_name_from_channel c) v).head? = some 'b' := by
    cases c <;> rfl
  have he : ebuild_file (make_name_from_channel c) v
      = (make_name_from_channel c ++ str "-" ++ v) ++ str ".ebuild" := by
    unfold ebuild_file
    simp [List.append_assoc]
  have hsuf : endsWithL (ebuild_file (make_name_from_channel c) v) (str ".ebuild") = true := by
    rw [he]
    exact endsWithL_append _ _
  exact isEbuildName_of_head hhead (by decide) hsuf

theorem globEbuilds_setFile_ebuild {f : Str} (hf : isEbuildName f = true)
    (d : Dir) (c : Str) :
    (globEbuilds (setFile d f c) = globEbuilds d ∧ f ∈ globEbuilds d) ∨
      globEbuilds (setFile d f c) = globEbuilds d ++ [f] := by
  unfold setFile
  by_cases h : d.any (fun kv => kv.1 == f) = true
  · left
    rw [if_pos h]
    constructor
    · unfold globEbuilds
      congr 1
      rw [List.map_map]
      apply List.map_congr_left
      intro kv _
      by_cases hkv : kv.1 == f
      · simp only [Function.comp_apply, if_pos hkv]
        exact (beq_iff_eq.mp hkv).symm
      · simp only [Function.comp_apply, if_neg hkv]
    · obtain ⟨kv, hkv, hbeq⟩ := List.any_eq_true.mp h
      unfold globEbuilds
      exact List.mem_filter.mpr ⟨List.mem_map.mpr ⟨kv, hkv, beq_iff_eq.mp hbeq⟩, hf⟩
  · right
    rw [if_neg h]
    unfold globEbuilds
    rw [List.map_append, List.filter_append]
    simp [hf]

theorem mem_globEbuilds_setFile {f : Str} (hf : isEbuildName f = true)
    (d : Dir) (c : Str) : f ∈ globEbuilds (setFile d f c) := by
  rcases globEbuilds_setFile_ebuild hf d c with ⟨heq, hmem⟩ | heq
  · rw [heq]; exact hmem
  · rw [heq]; exact List.mem_append.mpr (Or.inr (List.mem_singleton_self f))

theorem version_key_isSome_of_sorted {files sorted : List Str}
    (h : sortedEbuilds files = some sorted) :
    ∀ f ∈ files, (version_key f).isSome = true := by
  unfold sortedEbuilds at h
  simp only [Option.pure_def, Option.bind_eq_bind, Option.bind_eq_some,
    Option.some.injEq] at h
  obtain ⟨keyed, hk, _⟩ := h
  intro f hf
  obtain ⟨y, hy, _⟩ := mapO_mem_some hk hf
  cases hvk : version_key f with
  | none => rw [hvk] at hy; exact absurd hy (by simp)
  | some k => rfl

theorem sortedEbuilds_isSome {files : List Str}
    (h : ∀ f ∈ files, (version_key f).isSome = true) :
    (sortedEbuilds files).isSome = true := by
  have h2 : ∀ f ∈ files,
      ((fun g => (version_key g).map (fun k => ((k, g) : List Nat × Str))) f).isSome := by
    intro f hf
    have hvf := h f hf
    show ((version_key f).map (fun k => ((k, f) : List Nat × Str))).isSome = true
    cases hvk : version_key f with
    | none => rw [hvk] at hvf; exact absurd hvf (by simp)
    | some k => rfl
  have h3 := mapO_isSome_of_forall h2
  unfold sortedEbuilds
  cases hm : mapO (fun g => (version_key g).map (fun k => ((k, g) : List Nat × Str))) files with
  | none => rw [hm] at h3; exact absurd h3 (by simp)
  | some keyed => rfl

theorem store_add_shape {name version : Str} {dir dir1 : Dir}
    (h : store_add name version dir = some dir1) :
    ∃ e content, get_ebuilds_dir dir = some e ∧
      dir1 = setFile dir (ebuild_file name version) content := by
  simp only [store_add, Option.pure_def, Option.bind_eq_bind, Option.bind_eq_some,
    Option.some.injEq] at h
  obtain ⟨e, he, latest, hl, content, hc, hdir⟩ := h
  exact ⟨e, content, he, hdir.symm⟩

theorem update_manifest_head {name : Str} {fetch : Fetch} {pick : Pick}
    {dir dir' : Dir} (h : update_manifest name fetch pick dir = some dir') :
    ∃ versions, mapO extract_version (globEbuilds dir) = some versions := by
  simp only [update_manifest, Option.pure_def, Option.bind_eq_bind, Option.bind_eq_some,
    Option.some.injEq] at h
  obtain ⟨versions, hv, _⟩ := h
  exact ⟨versions, hv⟩

theorem extract_version_verStr_none (c : Chan) :
    extract_version (ebuild_file (make_name_from_channel c) (verStr none)) = none := by
  cases c <;> decide

/-- The release diff, relative to the starting accumulator: the appended
pairs record `releases[channel]` for a subset of the scanned channels (in
order), and every channel that was not appended is up to date in its
directory. -/
theorem get_new_releases_go_spec {rel : RelState} {repo : Repo} :
    ∀ {cs : List Chan} {acc nr : List (Chan × Option Str)},
      get_new_releases_go rel repo cs acc = some nr →
      ∃ added, nr = acc ++ added ∧ (added.map Prod.fst).Sublist cs ∧
        (∀ p ∈ added, p.2 = rel.get p.1) ∧
        (∀ c ∈ cs, c ∉ added.map Prod.fst → channel_ready rel c (repo.dirOf c)) := by
  intro cs
  induction cs with
  | nil =>
    intro acc nr h
    have h' : some acc = some nr := h
    refine ⟨[], ?_, List.nil_sublist _, ?_, ?_⟩
    · rw [List.append_nil]
      exact (Option.some.inj h').symm
    · intro p hp; cases hp
    · intro c hc; cases hc
  | cons c cs' ih =>
    intro acc nr h
    simp only [get_new_releases_go, Option.pure_def, Option.bind_eq_bind,
      Option.bind_eq_some] at h
    obtain ⟨e, he, vs, hvs, h⟩ := h
    cases hrc : rel.get c with
    | some v =>
      rw [hrc] at h
      have h' : get_new_releases_go rel repo cs'
          (if vs.any (· == v) = true then acc else acc ++ [(c, some v)]) = some nr := h
      by_cases hany : vs.any (· == v) = true
      · rw [if_pos hany] at h'
        obtain ⟨added, hnr, hsub, hsnd, hgood⟩ := ih h'
        refine ⟨added, hnr, hsub.cons c, hsnd, ?_⟩
        intro c' hc' hnm
        rcases List.mem_cons.mp hc' with rfl | hc''
        · exact ⟨e, vs, v, he, hvs, hrc, hany⟩
        · exact hgood c' hc'' hnm
      · rw [if_neg hany] at h'
        obtain ⟨added', hnr, hsub, hsnd, hgood⟩ := ih h'
        refine ⟨(c, some v) :: added', ?_, ?_, ?_, ?_⟩
        · rw [hnr, List.append_assoc]
          rfl
        · simp only [List.map_cons]
          exact hsub.cons₂ c
        · intro p hp
          rcases List.mem_cons.mp hp with rfl | hp'
          · exact hrc.symm
          · exact hsnd p hp'
        · intro c' hc' hnm
          simp only [List.map_cons, List.mem_cons, not_or] at hnm
          rcases List.mem_cons.mp hc' with rfl | hc''
          · exact absurd rfl hnm.1
          · exact hgood c' hc'' hnm.2
    | none =>
      rw [hrc] at h
      have h' : get_new_releases_go rel repo cs' (acc ++ [(c, none)]) = some nr := h
      obtain ⟨added', hnr, hsub, hsnd, hgood⟩ := ih h'
      refine ⟨(c, none) :: added', ?_, ?_, ?_, ?_⟩
      · rw [hnr, List.append_assoc]
        rfl
      · simp only [List.map_cons]
        exact hsub.cons₂ c
      · intro p hp
        rcases List.mem_cons.mp hp with rfl | hp'
        · exact hrc.symm
        · exact hsnd p hp'
      · intro c' hc' hnm
        simp only [List.map_cons, List.mem_cons, not_or] at hnm
        rcases List.mem_cons.mp hc' with rfl | hc''
        · exact absurd rfl hnm.1
        · exact hgood c' hc'' hnm.2

/-- When every scanned channel is up to date, the release diff appends
nothing. -/
theorem get_new_releases_go_ready {rel : RelState} {repo : Repo} :
    ∀ (cs : List Chan) (acc : List (Chan × Option Str)),
      (∀ c ∈ cs, channel_ready rel c (repo.dirOf c)) →
      get_new_releases_go rel repo cs acc = some acc := by
  intro cs
  induction cs with
  | nil => intro acc _; rfl
  | cons c cs' ih =>
    intro acc hready
    obtain ⟨e, vs, v, he, hvs, hv, hany⟩ := hready c (List.mem_cons_self _ _)
    have hge : get_ebuilds c repo = some e := he
    unfold get_new_releases_go
    rw [hge]
    simp only [Option.pure_def, Option.bind_eq_bind, Option.some_bind]
    rw [hvs]
    simp only [Option.some_bind]
    rw [hv]
    show get_new_releases_go rel repo cs'
      (if vs.any (· == v) = true then acc else acc ++ [(c, some v)]) = some acc
    rw [hany, if_pos rfl]
    exact ih acc (fun c' hc' => hready c' (List.mem_cons_of_mem _ hc'))

/-- Effect of `add_ebuilds_for_new_releases` on the store: untouched
channels keep their directory, and — when every resolved version's recipe
filename round-trips through `extract_version` and sorts under
`version_key` — every processed channel ends up with its resolved
version's recipe on disk, i.e. up to date. -/
theorem add_ebuilds_ready {fetch : Fetch} {pick : Pick} {rel : RelState}
    (hvk : ∀ c v, rel.get c = some v →
      extract_version (ebuild_file (make_name_from_channel c) v) = some v ∧
      (version_key (ebuild_file (make_name_from_channel c) v)).isSome = true) :
    ∀ {nrs : List (Chan × Option Str)} {repo repo1 : Repo},
      (nrs.map Prod.fst).Nodup →
      (∀ p ∈ nrs, p.2 = rel.get p.1) →
      add_ebuilds_for_new_releases fetch pick nrs repo = some repo1 →
      (∀ c, c ∉ nrs.map Prod.fst → repo1.dirOf c = repo.dirOf c) ∧
      (∀ p ∈ nrs, channel_ready rel p.1 (repo1.dirOf p.1)) := by
  intro nrs
  induction nrs with
  | nil =>
    intro repo repo1 _ _ h
    have h' : some repo = some repo1 := h
    have he := Option.some.inj h'
    subst he
    exact ⟨fun c _ => rfl, fun p hp => absurd hp (List.not_mem_nil p)⟩
  | cons p nrs' ih =>
    intro repo repo1 hnd hsnd h
    simp only [add_ebuilds_for_new_releases, Option.pure_def, Option.bind_eq_bind,
      Option.bind_eq_some] at h
    obtain ⟨dir1, hsa, dir2, hum, hrest⟩ := h
    simp only [List.map_cons, List.nodup_cons] at hnd
    obtain ⟨hp1, hnd'⟩ := hnd
    have hsnd' : ∀ q ∈ nrs', q.2 = rel.get q.1 :=
      fun q hq => hsnd q (List.mem_cons_of_mem _ hq)
    obtain ⟨hunt, hrdy⟩ := ih hnd' hsnd' hrest
    have hself : repo1.dirOf p.1 = dir2 := by
      rw [hunt p.1 hp1]
      exact dirOf_setDir_self repo p.1 dir2
    constructor
    · intro c hc
      rw [List.map_cons, List.mem_cons, not_or] at hc
      obtain ⟨hne, hnm⟩ := hc
      rw [hunt c hnm]
      exact dirOf_setDir_ne repo hne dir2
    · intro q hq
      rcases List.mem_cons.mp hq with rfl | hq'
      · rw [hself]
        obtain ⟨e0, content, he0, hdir1⟩ := store_add_shape hsa
        subst hdir1
        obtain ⟨versions, hver⟩ := update_manifest_head hum
        have hglob2 := update_manifest_globEbuilds hum
        have hp2 := hsnd q (List.mem_cons_self _ _)
        cases hrc : rel.get q.1 with
        | none =>
          exfalso
          rw [hrc] at hp2
          have hfe : isEbuildName (ebuild_file (make_name_from_channel q.1) (verStr q.2))
              = true := isEbuildName_ebuild_file _ _
          have hfm := mem_globEbuilds_setFile hfe (repo.dirOf q.1) content
          have hnone : extract_version (ebuild_file (make_name_from_channel q.1) (verStr q.2))
              = none := by
            rw [hp2]
            exact extract_version_verStr_none q.1
          have hmn := mapO_eq_none_of_mem extract_version hfm hnone
          rw [hmn] at hver
          exact Option.noConfusion hver
        | some v =>
          rw [hrc] at hp2
          have hf : ebuild_file (make_name_from_channel q.1) (verStr q.2)
              = ebuild_file (make_name_from_channel q.1) v := by
            rw [hp2]
            rfl
          rw [hf] at hglob2 hver
          obtain ⟨hx, hkf⟩ := hvk q.1 v hrc
          have hfe : isEbuildName (ebuild_file (make_name_from_channel q.1) v) = true :=
            isEbuildName_ebuild_file _ _
          have hfm := mem_globEbuilds_setFile hfe (repo.dirOf q.1) content
          have hks : ∀ g ∈ globEbuilds dir2, (version_key g).isSome = true := by
            intro g hg
            rw [hglob2] at hg
            rcases globEbuilds_setFile_ebuild hfe (repo.dirOf q.1) content with ⟨heq, _⟩ | heq
            · rw [heq] at hg
              exact version_key_isSome_of_sorted he0 g hg
            · rw [heq] at hg
              rcases List.mem_append.mp hg with hg' | hg'
              · exact version_key_isSome_of_sorted he0 g hg'
              · rw [List.mem_singleton.mp hg']
                exact hkf
          obtain ⟨e1, he1⟩ := Option.isSome_iff_exists.mp (sortedEbuilds_isSome hks)
          have hvsS : (mapO extract_version e1).isSome = true := by
            apply mapO_isSome_of_forall
            intro x hx'
            have hx2 : x ∈ globEbuilds dir2 := (sortedEbuilds_mem he1 x).mp hx'
            rw [hglob2] at hx2
            obtain ⟨y, hy, _⟩ := mapO_mem_some hver hx2
            rw [hy]
            rfl
          obtain ⟨vs1, hvs1⟩ := Option.isSome_iff_exists.mp hvsS
          have hfm2 : ebuild_file (make_name_from_channel q.1) v ∈ e1 := by
            rw [sortedEbuilds_mem he1, hglob2]
            exact hfm
          obtain ⟨y, hy, hymem⟩ := mapO_mem_some hvs1 hfm2
          rw [hx] at hy
          have hyv := Option.some.inj hy
          subst hyv
          have hany : vs1.any (· == v) = true :=
            List.any_eq_true.mpr ⟨v, hymem, by simp⟩
          exact ⟨e1, vs1, v, he1, hvs1, hrc, hany⟩
      · exact hrdy q hq'

/-- **C8.**  The update operation is idempotent: if a run of
`update_ebuilds` succeeds (against a feed whose resolved versions
round-trip through the recipe filename codec and sort under
`version_key` — true of every `vX.Y.Z` tag upstream publishes, and
exactly the situation in which the claim's "no new releases are detected
the second time" holds), then running it again with the unchanged feed
returns the repository unchanged: every channel's new recipe is now on
disk, so the release diff is empty, no recipe file is copied and no
manifest is rewritten. -/
theorem update_ebuilds_idempotent {fetch : Fetch} {pick : Pick}
    {pages : List (List Release)} {rel : RelState} {repo repo1 : Repo}
    (hrel : get_latest_releases pages = some rel)
    (hvk : ∀ c v, rel.get c = some v →
      extract_version (ebuild_file (make_name_from_channel c) v) = some v ∧
      (version_key (ebuild_file (make_name_from_channel c) v)).isSome = true)
    (h : update_ebuilds fetch pick pages repo = some repo1) :
    update_ebuilds fetch pick pages repo1 = some repo1 := by
  simp only [update_ebuilds, Option.pure_def, Option.bind_eq_bind,
    Option.bind_eq_some] at h
  obtain ⟨rel', hrel', nr, hnr, hadd⟩ := h
  rw [hrel] at hrel'
  have hre := Option.some.inj hrel'
  subst hre
  have hnrg : get_new_releases_go rel repo CHANNELS [] = some nr := hnr
  obtain ⟨added, hnr2, hsub, hsnd, hgood⟩ := get_new_releases_go_spec hnrg
  rw [List.nil_append] at hnr2
  rw [hnr2] at hadd
  have hnd : (added.map Prod.fst).Nodup :=
    List.Nodup.sublist hsub (by decide)
  obtain ⟨huntouch, hready⟩ := add_ebuilds_ready hvk hnd hsnd hadd
  have hall : ∀ c ∈ CHANNELS, channel_ready rel c (repo1.dirOf c) := by
    intro c hc
    by_cases hmem : c ∈ added.map Prod.fst
    · obtain ⟨p, hp, hpc⟩ := List.mem_map.mp hmem
      rw [← hpc]
      exact hready p hp
    · rw [huntouch c hmem]
      exact hgood c hc hmem
  have hnr3 : get_new_releases rel repo1 = some [] :=
    get_new_releases_go_ready CHANNELS [] hall
  simp only [update_ebuilds, Option.pure_def, Option.bind_eq_bind]
  rw [hrel]
  simp only [Option.some_bind]
  rw [hnr3]
  simp only [Option.some_bind]
  rfl

/-- **C8** witness: a feed that resolves `stable` to the new version
`1.0.1` (with `beta` and `nightly` already on disk at `1.0.0`); the first
run clones the stable recipe to `brave-browser-1.0.1.ebuild` and appends
its `DIST` line, and the second run over the resulting repository is a
no-op. -/
theorem update_ebuilds_idempotent_witness :
    update_ebuilds (fun _ => some ⟨1, str "aa", str "bb"⟩) pickDedup
      [[⟨str "Release 1.0.1", str "v1.0.1", [str "brave-browser_1.0.1_amd64.deb"]⟩,
        ⟨str "Beta 1.0.0", str "v1.0.0", [str "brave-browser-beta_1.0.0_amd64.deb"]⟩,
        ⟨str "Nightly 1.0.0", str "v1.0.0", [str "brave-browser-nightly_1.0.0_amd64.deb"]⟩]]
      ⟨[(str "brave-browser-1.0.0.ebuild", str "C"),
        (str "Manifest",
         str "DIST brave-browser_1.0.0_amd64.deb 1 BLAKE2B aa SHA512 bb\nDIST brave-browser_1.0.1_amd64.deb 1 BLAKE2B aa SHA512 bb\n"),
        (str "brave-browser-1.0.1.ebuild", str "C")],
       [(str "brave-browser-beta-1.0.0.ebuild", str "C")],
       [(str "brave-browser-nightly-1.0.0.ebuild", str "C")]⟩
      = some
      ⟨[(str "brave-browser-1.0.0.ebuild", str "C"),
        (str "Manifest",
         str "DIST brave-browser_1.0.0_amd64.deb 1 BLAKE2B aa SHA512 bb\nDIST brave-browser_1.0.1_amd64.deb 1 BLAKE2B aa SHA512 bb\n"),
        (str "brave-browser-1.0.1.ebuild", str "C")],
       [(str "brave-browser-beta-1.0.0.ebuild", str "C")],
       [(str "brave-browser-nightly-1.0.0.ebuild", str "C")]⟩ :=
  @update_ebuilds_idempotent (fun _ => some ⟨1, str "aa", str "bb"⟩) pickDedup
    [[⟨str "Release 1.0.1", str "v1.0.1", [str "brave-browser_1.0.1_amd64.deb"]⟩,
      ⟨str "Beta 1.0.0", str "v1.0.0", [str "brave-browser-beta_1.0.0_amd64.deb"]⟩,
      ⟨str "Nightly 1.0.0", str "v1.0.0", [str "brave-browser-nightly_1.0.0_amd64.deb"]⟩]]
    ⟨some (str "1.0.1"), some (str "1.0.0"), some (str "1.0.0"), 3⟩
    ⟨[(str "brave-browser-1.0.0.ebuild", str "C"),
      (str "Manifest",
       str "DIST brave-browser_1.0.0_amd64.deb 1 BLAKE2B aa SHA512 bb\n")],
     [(str "brave-browser-beta-1.0.0.ebuild", str "C")],
     [(str "brave-browser-nightly-1.0.0.ebuild", str "C")]⟩
    ⟨[(str "brave-browser-1.0.0.ebuild", str "C"),
      (str "Manifest",
       str "DIST brave-browser_1.0.0_amd64.deb 1 BLAKE2B aa SHA512 bb\nDIST brave-browser_1.0.1_amd64.deb 1 BLAKE2B aa SHA512 bb\n"),
      (str "brave-browser-1.0.1.ebuild", str "C")],
     [(str "brave-browser-beta-1.0.0.ebuild", str "C")],
     [(str "brave-browser-nightly-1.0.0.ebuild", str "C")]⟩
    (by decide)
    (fun c v hv => by
      cases c <;>
        · have hv' := Option.some.inj hv
          subst hv'
          exact ⟨by decide, by decide⟩)
    (by decide)
